import Mathlib

/-!
Verification development for the svn2git history converter.

This file gives a shallow embedding, in Lean 4, of the parts of the
converter's Python source that the checked claims are about:

* `svn_dump_reader.py` — the dump record reader (`node_record.read`), the
  header value decoders, the svndiff delta decoder (`node_record.apply_delta`
  with its nested `get_int`/`get_data`), and the property block parser
  (`process_props_block`);
* `history_reader.py` — property delta application
  (`apply_delta_to_properties`, `svn_object.set_properties`), the structural
  fingerprint (`svn_object.make_svn_hash`, `svn_tree.finalize`), and the
  revision tree builder (`history_reader.apply_file_node`);
* `mergeinfo.py` — `mergeinfo.normalize`, `mergeinfo.get_diff`,
  `tree_mergeinfo.build_mergeinfo`.  The range algebra it imports
  (`rev_ranges.py`) is not part of the sources, so `combine_ranges` and
  `subtract_ranges` are modelled from the specification (see their
  doc comments).

Python byte strings and text strings are modelled as `List Nat` of byte
values / code points; dictionaries as insertion-ordered association lists
with unique keys; raised exceptions as `Except` errors.  SHA-1/MD5 are pure
functions of their input, so they are passed as abstract function
parameters: every equality proved here holds for the real hash functions.
-/

namespace Svn2Git

/-- Byte strings (Python `bytes`) and text strings (Python `str`, as code
points) are both modelled as lists of naturals. -/
abbrev Bytes := List Nat

/-- Code points of a string literal; used to transcribe the byte-string and
string literals appearing in the source. -/
def s2b (s : String) : Bytes := s.toList.map Char.toNat

/-- Lexicographic `≤` on byte strings: Python's ordering on `bytes` and (by
code point) on `str`. -/
def bytesLe : Bytes → Bytes → Bool
  | [], _ => true
  | _ :: _, [] => false
  | a :: as, b :: bs => if a < b then true else if b < a then false else bytesLe as bs

/-- Lexicographic `<` on byte strings. -/
def bytesLt : Bytes → Bytes → Bool
  | _, [] => false
  | [], _ :: _ => true
  | a :: as, b :: bs => if a < b then true else if b < a then false else bytesLt as bs

theorem bytesLe_refl (a : Bytes) : bytesLe a a = true := by
  induction a with
  | nil => rfl
  | cons x xs ih => simp [bytesLe, ih]

theorem bytesLe_total (a b : Bytes) : bytesLe a b = true ∨ bytesLe b a = true := by
  induction a generalizing b with
  | nil => left; rfl
  | cons x xs ih =>
    cases b with
    | nil => right; rfl
    | cons y ys =>
      rcases Nat.lt_trichotomy x y with h | h | h
      · left; simp [bytesLe, h]
      · subst h
        rcases ih ys with h' | h'
        · left; simp [bytesLe, h']
        · right; simp [bytesLe, h']
      · right; simp [bytesLe, h, Nat.not_lt_of_gt h]

theorem bytesLe_antisymm {a b : Bytes} (h₁ : bytesLe a b = true) (h₂ : bytesLe b a = true) :
    a = b := by
  induction a generalizing b with
  | nil => cases b with
    | nil => rfl
    | cons y ys => simp [bytesLe] at h₂
  | cons x xs ih =>
    cases b with
    | nil => simp [bytesLe] at h₁
    | cons y ys =>
      rcases Nat.lt_trichotomy x y with h | h | h
      · simp [bytesLe, h, Nat.not_lt_of_gt h] at h₂
      · subst h
        simp only [bytesLe, lt_irrefl, if_false] at h₁ h₂
        exact congrArg (x :: ·) (ih h₁ h₂)
      · simp [bytesLe, h, Nat.not_lt_of_gt h] at h₁

theorem bytesLe_trans {a b c : Bytes} (h₁ : bytesLe a b = true) (h₂ : bytesLe b c = true) :
    bytesLe a c = true := by
  induction a generalizing b c with
  | nil => rfl
  | cons x xs ih =>
    cases b with
    | nil => simp [bytesLe] at h₁
    | cons y ys =>
      cases c with
      | nil => simp [bytesLe] at h₂
      | cons z zs =>
        simp only [bytesLe] at h₁ h₂ ⊢
        rcases Nat.lt_trichotomy x y with hxy | hxy | hxy
        · rcases Nat.lt_trichotomy y z with hyz | hyz | hyz
          · simp [Nat.lt_trans hxy hyz]
          · subst hyz; simp [hxy]
          · simp [hyz, Nat.not_lt_of_gt hyz] at h₂
        · subst hxy
          rcases Nat.lt_trichotomy x z with hyz | hyz | hyz
          · simp [hyz]
          · subst hyz
            simp only [lt_irrefl, if_false] at h₁ h₂ ⊢
            exact ih h₁ h₂
          · simp [hyz, Nat.not_lt_of_gt hyz] at h₂
        · simp [hxy, Nat.not_lt_of_gt hxy] at h₁

theorem bytesLt_iff {a b : Bytes} : bytesLt a b = true ↔ (bytesLe a b = true ∧ a ≠ b) := by
  induction a generalizing b with
  | nil =>
    cases b with
    | nil => simp [bytesLt, bytesLe]
    | cons y ys => simp [bytesLt, bytesLe]
  | cons x xs ih =>
    cases b with
    | nil => simp [bytesLt, bytesLe]
    | cons y ys =>
      simp only [bytesLt, bytesLe]
      rcases Nat.lt_trichotomy x y with h | h | h
      · simp [h, Nat.ne_of_lt h]
      · subst h
        simp only [lt_irrefl, if_false]
        rw [ih]
        constructor
        · rintro ⟨h1, h2⟩
          exact ⟨h1, by simpa using h2⟩
        · rintro ⟨h1, h2⟩
          exact ⟨h1, by intro hc; exact h2 (by rw [hc])⟩
      · simp [h, Nat.not_lt_of_gt h]

/-! ### A stable insertion sort

Python's `list.sort` is a stable sort.  We model it with a stable insertion
sort (`isort`): an element is placed before the first already-sorted element
it is `le`-below, so equal elements keep their original relative order. -/

/-- Insert `x` into `l` before the first element `y` with `le x y`. -/
def insertSorted (le : α → α → Bool) (x : α) : List α → List α
  | [] => [x]
  | y :: ys => if le x y then x :: y :: ys else y :: insertSorted le x ys

/-- Stable insertion sort, modelling Python's `list.sort`. -/
def isort (le : α → α → Bool) : List α → List α
  | [] => []
  | x :: xs => insertSorted le x (isort le xs)

theorem insertSorted_perm (le : α → α → Bool) (x : α) (l : List α) :
    (insertSorted le x l).Perm (x :: l) := by
  induction l with
  | nil => exact List.Perm.refl _
  | cons y ys ih =>
    by_cases h : le x y = true
    · simp [insertSorted, h]
    · simp only [insertSorted, h, if_false]
      exact ((ih.cons y).trans (List.Perm.swap x y ys))

theorem isort_perm (le : α → α → Bool) (l : List α) : (isort le l).Perm l := by
  induction l with
  | nil => exact List.Perm.refl _
  | cons x xs ih =>
    exact (insertSorted_perm le x (isort le xs)).trans (ih.cons x)

theorem mem_isort {le : α → α → Bool} {l : List α} {x : α} :
    x ∈ isort le l ↔ x ∈ l := (isort_perm le l).mem_iff

theorem insertSorted_pairwise {le : α → α → Bool}
    (trans : ∀ a b c, le a b = true → le b c = true → le a c = true)
    (total : ∀ a b, le a b = true ∨ le b a = true) {x : α} {l : List α}
    (h : l.Pairwise (fun a b => le a b = true)) :
    (insertSorted le x l).Pairwise (fun a b => le a b = true) := by
  induction l with
  | nil => simp [insertSorted]
  | cons y ys ih =>
    rcases List.pairwise_cons.mp h with ⟨hy, hys⟩
    by_cases hxy : le x y = true
    · simp only [insertSorted, hxy, if_true]
      refine List.pairwise_cons.mpr ⟨?_, h⟩
      intro z hz
      rcases List.mem_cons.mp hz with hz | hz
      · subst hz; exact hxy
      · exact trans x y z hxy (hy _ hz)
    · have hyx : le y x = true := (total x y).resolve_left hxy
      simp only [insertSorted, hxy, if_false]
      refine List.pairwise_cons.mpr ⟨?_, ih hys⟩
      intro z hz
      rw [(insertSorted_perm le x ys).mem_iff] at hz
      rcases List.mem_cons.mp hz with hz | hz
      · subst hz; exact hyx
      · exact hy _ hz

theorem isort_pairwise {le : α → α → Bool}
    (trans : ∀ a b c, le a b = true → le b c = true → le a c = true)
    (total : ∀ a b, le a b = true ∨ le b a = true) (l : List α) :
    (isort le l).Pairwise (fun a b => le a b = true) := by
  induction l with
  | nil => simp [isort]
  | cons x xs ih => exact insertSorted_pairwise trans total ih

/-- Two permuted lists sort identically when the order is antisymmetric. -/
theorem isort_eq_of_perm {le : α → α → Bool}
    (trans : ∀ a b c, le a b = true → le b c = true → le a c = true)
    (total : ∀ a b, le a b = true ∨ le b a = true)
    (antisymm : ∀ a b, le a b = true → le b a = true → a = b)
    {l₁ l₂ : List α} (h : l₁.Perm l₂) : isort le l₁ = isort le l₂ := by
  haveI : IsAntisymm α (fun a b => le a b = true) := ⟨antisymm⟩
  exact List.eq_of_perm_of_sorted
    ((isort_perm le l₁).trans (h.trans (isort_perm le l₂).symm))
    (isort_pairwise trans total l₁) (isort_pairwise trans total l₂)

/-- Two permuted lists with pairwise-distinct byte-string sort keys sort
identically, even though the order compares only the key (as Python's
`key=` sorts do). -/
theorem isort_eq_of_perm_of_nodup_keys (key : α → Bytes)
    {l₁ l₂ : List α} (h : l₁.Perm l₂) (hnd : (l₁.map key).Nodup) :
    isort (fun a b => bytesLe (key a) (key b)) l₁
      = isort (fun a b => bytesLe (key a) (key b)) l₂ := by
  set le : α → α → Bool := fun a b => bytesLe (key a) (key b) with hle
  have trans : ∀ a b c : α, le a b = true → le b c = true → le a c = true :=
    fun a b c h1 h2 => bytesLe_trans h1 h2
  have total : ∀ a b : α, le a b = true ∨ le b a = true :=
    fun a b => bytesLe_total (key a) (key b)
  have sortedStrict : ∀ l : List α, (l.map key).Nodup →
      (isort le l).Pairwise (fun a b => bytesLt (key a) (key b) = true) := by
    intro l hnodup
    have hperm : ((isort le l).map key).Perm (l.map key) := (isort_perm le l).map key
    have hnd' : ((isort le l).map key).Nodup := hperm.nodup_iff.mpr hnodup
    have hne : (isort le l).Pairwise (fun a b => key a ≠ key b) :=
      List.pairwise_map.mp hnd'
    have hsorted : (isort le l).Pairwise (fun a b => le a b = true) :=
      isort_pairwise trans total l
    exact (hsorted.and hne).imp (fun hab =>
      bytesLt_iff.mpr ⟨hab.1, hab.2⟩)
  haveI : IsAntisymm α (fun a b => bytesLt (key a) (key b) = true) := by
    refine ⟨fun a b h1 h2 => ?_⟩
    rcases bytesLt_iff.mp h1 with ⟨h1le, h1ne⟩
    rcases bytesLt_iff.mp h2 with ⟨h2le, _⟩
    exact absurd (bytesLe_antisymm h1le h2le) h1ne
  have hnd₂ : (l₂.map key).Nodup := (h.map key).nodup_iff.mp hnd
  exact List.eq_of_perm_of_sorted
    ((isort_perm le l₁).trans (h.trans (isort_perm le l₂).symm))
    (sortedStrict l₁ hnd) (sortedStrict l₂ hnd₂)

/-! ### Insertion-ordered dictionaries

Python `dict`s keep entries in insertion order, update values in place and
have unique keys.  They are modelled as association lists. -/

/-- `d.get(k)`: first value stored under `k` (keys are unique in practice). -/
def dictGet [DecidableEq κ] : List (κ × ν) → κ → Option ν
  | [], _ => none
  | (k', v) :: rest, k => if k' = k then some v else dictGet rest k

/-- `k in d`. -/
def containsKey [DecidableEq κ] (d : List (κ × ν)) (k : κ) : Bool :=
  (dictGet d k).isSome

/-- `d[k] = v`: update in place when present, append otherwise. -/
def dictSet [DecidableEq κ] : List (κ × ν) → κ → ν → List (κ × ν)
  | [], k, v => [(k, v)]
  | (k', v') :: rest, k, v =>
    if k' = k then (k', v) :: rest else (k', v') :: dictSet rest k v

/-- `d.pop(k)`: remove the entry stored under `k`. -/
def dictPop [DecidableEq κ] : List (κ × ν) → κ → List (κ × ν)
  | [], _ => []
  | (k', v') :: rest, k => if k' = k then rest else (k', v') :: dictPop rest k

theorem dictGet_dictPop_ne [DecidableEq κ] (d : List (κ × ν)) {k k' : κ} (h : k' ≠ k) :
    dictGet (dictPop d k) k' = dictGet d k' := by
  induction d with
  | nil => rfl
  | cons e rest ih =>
    obtain ⟨k₀, v₀⟩ := e
    by_cases h₀ : k₀ = k
    · subst h₀
      have hk : ¬ (k₀ = k') := fun hc => h hc.symm
      simp [dictPop, dictGet, hk]
    · by_cases h₁ : k₀ = k'
      · subst h₁
        simp [dictPop, dictGet, h₀]
      · simp [dictPop, dictGet, h₀, h₁, ih]

theorem dictGet_dictSet_ne [DecidableEq κ] (d : List (κ × ν)) (v : ν) {k k' : κ}
    (h : k' ≠ k) : dictGet (dictSet d k v) k' = dictGet d k' := by
  induction d with
  | nil =>
    have hk : ¬ (k = k') := fun hc => h hc.symm
    simp [dictSet, dictGet, hk]
  | cons e rest ih =>
    obtain ⟨k₀, v₀⟩ := e
    by_cases h₀ : k₀ = k
    · subst h₀
      have hk : ¬ (k₀ = k') := fun hc => h hc.symm
      simp [dictSet, dictGet, hk]
    · by_cases h₁ : k₀ = k'
      · subst h₁
        simp [dictSet, dictGet, h₀]
      · simp [dictSet, dictGet, h₀, h₁, ih]

theorem dictGet_dictSet_self [DecidableEq κ] (d : List (κ × ν)) (k : κ) (v : ν) :
    dictGet (dictSet d k v) k = some v := by
  induction d with
  | nil => simp [dictSet, dictGet]
  | cons e rest ih =>
    obtain ⟨k₀, v₀⟩ := e
    by_cases h₀ : k₀ = k
    · subst h₀; simp [dictSet, dictGet]
    · simp [dictSet, dictGet, h₀, ih]

theorem dictGet_dictPop_self [DecidableEq κ] (d : List (κ × ν)) (k : κ)
    (hnd : (d.map Prod.fst).Nodup) : dictGet (dictPop d k) k = none := by
  induction d with
  | nil => rfl
  | cons e rest ih =>
    obtain ⟨k₀, v₀⟩ := e
    simp only [List.map_cons, List.nodup_cons] at hnd
    by_cases h₀ : k₀ = k
    · subst h₀
      simp only [dictPop, if_pos rfl]
      -- k₀ does not recur in rest, so the lookup misses
      clear ih
      induction rest with
      | nil => rfl
      | cons e' rest' ih' =>
        obtain ⟨k₁, v₁⟩ := e'
        simp only [List.map_cons, List.mem_cons, List.nodup_cons] at hnd
        have hk₁ : k₁ ≠ k₀ := fun hc => hnd.1 (Or.inl hc.symm)
        simp only [dictGet, if_neg hk₁]
        exact ih' ⟨fun hm => hnd.1 (Or.inr hm), hnd.2.2⟩
    · simp [dictPop, dictGet, h₀, ih hnd.2]

theorem dictGet_eq_of_mem [DecidableEq κ] {d : List (κ × ν)} {k : κ} {v : ν}
    (hnd : (d.map Prod.fst).Nodup) (hm : (k, v) ∈ d) : dictGet d k = some v := by
  induction d with
  | nil => cases hm
  | cons e rest ih =>
    obtain ⟨k₀, v₀⟩ := e
    simp only [List.map_cons, List.nodup_cons] at hnd
    rcases List.mem_cons.mp hm with hm | hm
    · obtain ⟨h1, h2⟩ := Prod.mk.injEq .. ▸ hm
      subst h1; subst h2
      simp [dictGet]
    · have hk : k₀ ≠ k := fun hc => by
        subst hc
        exact hnd.1 (List.mem_map.mpr ⟨(k₀, v), hm, rfl⟩)
      simp [dictGet, hk, ih hnd.2 hm]

/-! ## Property deltas (`history_reader.apply_delta_to_properties`,
`svn_object.set_properties`) — claim C5

`svn_object.properties` maps byte-string keys to byte-string values.
A node's parsed property block (`node.props`) maps keys to
`Option` values: `some v` for a `K`/`V` add-or-change entry and `none` for a
`D` delete entry. -/

/-- Errors raised as `Exception_history_parse`. -/
inductive HistoryParseErr where
  | unknownKey
  | nonDeltaDelete
  | nonExistentPath
  | notAFile
  | alreadyExists
  | copyRevOutOfRange
  | copyRevNotFound
  | copySourceNotFound
  | copySourceNotAFile
  | hashMismatch
  | deltaFailed
  | missingDeltaSource
  deriving DecidableEq, Repr

/-- The loop of `apply_delta_to_properties`: walk the delta entries in
insertion order; a `none` value deletes the key (failing when absent), a
`some` value stores it. -/
def applyDeltaProps : List (Bytes × Bytes) → List (Bytes × Option Bytes) →
    Except HistoryParseErr (List (Bytes × Bytes))
  | props, [] => .ok props
  | props, (key, none) :: rest =>
    if containsKey props key then applyDeltaProps (dictPop props key) rest
    else .error .unknownKey
  | props, (key, some data) :: rest => applyDeltaProps (dictSet props key data) rest

/-- `apply_delta_to_properties(props, delta)` from `history_reader.py`:
`None` means an empty starting map, otherwise the map is copied and then
edited entry by entry. -/
def apply_delta_to_properties (props : Option (List (Bytes × Bytes)))
    (delta : List (Bytes × Option Bytes)) : Except HistoryParseErr (List (Bytes × Bytes)) :=
  applyDeltaProps (props.getD []) delta

/-- A parsed property map all of whose entries are adds (`some`), converted
to a plain map; `none` when it contains a delete entry. -/
def stripOpt : List (Bytes × Option Bytes) → Option (List (Bytes × Bytes))
  | [] => some []
  | (k, some v) :: rest => (stripOpt rest).map (fun r => (k, v) :: r)
  | (_, none) :: _ => none

/-- A plain property map viewed as a parsed block of adds (for the source's
`self.properties == props` comparison). -/
def liftProps (p : List (Bytes × Bytes)) : List (Bytes × Option Bytes) :=
  p.map (fun kv => (kv.1, some kv.2))

/-- `svn_object.set_properties(props, is_delta)`, as the transformation it
performs on the object's property map.  Non-delta blocks replace the map
(the source short-circuits when the new map equals the current one, keeping
the object unchanged); delta blocks go through
`apply_delta_to_properties`.  A delete entry in a non-delta block would
store Python `None` in the map, which crashes at the next use of the map
(`len(None)` in `make_svn_hash`); the typed embedding reports that state as
an immediate error — it is unreachable for well-formed non-delta blocks. -/
def set_properties (properties : List (Bytes × Bytes))
    (props : List (Bytes × Option Bytes)) (is_delta : Bool) :
    Except HistoryParseErr (List (Bytes × Bytes)) :=
  if ¬ is_delta ∧ props = liftProps properties then .ok properties
  else if is_delta then apply_delta_to_properties (some properties) props
  else
    match stripOpt props with
    | some newProps => .ok newProps
    | none => .error .nonDeltaDelete

/-- Whether an `Except` computation failed. -/
def isErr : Except ε α → Bool
  | .error _ => true
  | .ok _ => false

theorem stripOpt_liftProps (p : List (Bytes × Bytes)) : stripOpt (liftProps p) = some p := by
  induction p with
  | nil => rfl
  | cons kv rest ih =>
    obtain ⟨k, v⟩ := kv
    have h1 : liftProps ((k, v) :: rest) = (k, some v) :: liftProps rest := rfl
    have h2 : stripOpt ((k, some v) :: liftProps rest)
        = (stripOpt (liftProps rest)).map (fun r => (k, v) :: r) := rfl
    rw [h1, h2, ih]
    rfl

theorem applyDeltaProps_err_iff (props : List (Bytes × Bytes))
    (delta : List (Bytes × Option Bytes)) (hnd : (delta.map Prod.fst).Nodup) :
    isErr (applyDeltaProps props delta) = true ↔
      ∃ k, (k, (none : Option Bytes)) ∈ delta ∧ containsKey props k = false := by
  induction delta generalizing props with
  | nil => simp [applyDeltaProps, isErr]
  | cons e rest ih =>
    obtain ⟨k₀, v₀⟩ := e
    simp only [List.map_cons, List.nodup_cons] at hnd
    have hnotin : ∀ v, (k₀, v) ∈ rest → False := fun v hm =>
      hnd.1 (List.mem_map.mpr ⟨(k₀, v), hm, rfl⟩)
    cases v₀ with
    | none =>
      by_cases hc : containsKey props k₀ = true
      · rw [show applyDeltaProps props ((k₀, none) :: rest)
              = applyDeltaProps (dictPop props k₀) rest by simp [applyDeltaProps, hc]]
        rw [ih (dictPop props k₀) hnd.2]
        constructor
        · rintro ⟨k, hk, hck⟩
          refine ⟨k, List.mem_cons_of_mem _ hk, ?_⟩
          have hne : k ≠ k₀ := fun hkk => hnotin none (hkk ▸ hk)
          rwa [containsKey, dictGet_dictPop_ne props hne] at hck
        · rintro ⟨k, hk, hck⟩
          rcases List.mem_cons.mp hk with hk | hk
          · exfalso
            have : k = k₀ := congrArg Prod.fst hk
            rw [this] at hck
            rw [hck] at hc
            cases hc
          · have hne : k ≠ k₀ := fun hkk => hnotin none (hkk ▸ hk)
            exact ⟨k, hk, by rwa [containsKey, dictGet_dictPop_ne props hne]⟩
      · rw [show applyDeltaProps props ((k₀, none) :: rest)
              = .error .unknownKey by simp [applyDeltaProps, hc]]
        simp only [isErr, true_iff]
        exact ⟨k₀, List.mem_cons_self _ _, by simpa using hc⟩
    | some v =>
      rw [show applyDeltaProps props ((k₀, some v) :: rest)
            = applyDeltaProps (dictSet props k₀ v) rest by simp [applyDeltaProps]]
      rw [ih (dictSet props k₀ v) hnd.2]
      constructor
      · rintro ⟨k, hk, hck⟩
        have hne : k ≠ k₀ := fun hkk => hnotin none (hkk ▸ hk)
        refine ⟨k, List.mem_cons_of_mem _ hk, ?_⟩
        rwa [containsKey, dictGet_dictSet_ne props v hne] at hck
      · rintro ⟨k, hk, hck⟩
        rcases List.mem_cons.mp hk with hk | hk
        · cases hk
        · have hne : k ≠ k₀ := fun hkk => hnotin none (hkk ▸ hk)
          exact ⟨k, hk, by rwa [containsKey, dictGet_dictSet_ne props v hne]⟩

/-- Claim C5: applying a non-delta property block replaces the whole
property map with the new map; applying a delta block fails with a
history-parse error exactly when the delta deletes a key absent from the
current map. -/
theorem set_properties_replace_and_delta_failure
    (properties p : List (Bytes × Bytes)) (props delta : List (Bytes × Option Bytes))
    (hp : stripOpt props = some p)
    (hnd : (delta.map Prod.fst).Nodup) :
    set_properties properties props false = .ok p ∧
      (isErr (set_properties properties delta true) = true ↔
        ∃ k, (k, (none : Option Bytes)) ∈ delta ∧ containsKey properties k = false) := by
  constructor
  · by_cases heq : props = liftProps properties
    · subst heq
      rw [stripOpt_liftProps] at hp
      cases hp
      simp [set_properties]
    · simp [set_properties, heq, hp]
  · rw [show set_properties properties delta true
          = apply_delta_to_properties (some properties) delta by
        simp [set_properties]]
    exact applyDeltaProps_err_iff properties delta hnd

/-- Witness for C5 at concrete inputs: replacing `[a ↦ x]` by the parsed
block `[b ↦ y]` yields `[b ↦ y]`, and a delta deleting the absent key `c`
fails while one deleting `a` does not. -/
theorem set_properties_replace_and_delta_failure_witness :
    (stripOpt [(s2b "b", some (s2b "y"))] = some [(s2b "b", s2b "y")] ∧
      (([(s2b "c", (none : Option Bytes))].map Prod.fst).Nodup)) ∧
    (set_properties [(s2b "a", s2b "x")] [(s2b "b", some (s2b "y"))] false
        = .ok [(s2b "b", s2b "y")] ∧
      (isErr (set_properties [(s2b "a", s2b "x")] [(s2b "c", (none : Option Bytes))] true) = true ↔
        ∃ k, (k, (none : Option Bytes)) ∈ [(s2b "c", (none : Option Bytes))] ∧
          containsKey [(s2b "a", s2b "x")] k = false)) :=
  ⟨⟨by decide, by decide⟩,
    set_properties_replace_and_delta_failure [(s2b "a", s2b "x")] [(s2b "b", s2b "y")]
      [(s2b "b", some (s2b "y"))] [(s2b "c", none)] (by decide) (by decide)⟩

/-! ## Property block parsing (`svn_dump_reader.process_props_block`) —
claim C10 -/

/-- Errors raised as `Exception_svn_parse`. -/
inductive SvnParseErr where
  | unterminatedPropsBlock
  | badPropLine
  | missingNewlineAfterKey
  | duplicateKey
  | badValueLine
  | missingNewlineAfterValue
  | contentTooShort
  | missingNewlineAfterContent
  | badNodeKind
  | badNodeAction
  | notDecimal
  | badSha1
  | badMd5
  | badBool
  | contentLengthMismatch
  | dirWithText
  | dirChangeWithoutProps
  | deleteWithText
  | deleteWithProps
  | deleteWithCopySource
  | changeWithCopySource
  | sha1Mismatch
  | md5Mismatch
  | badDeltaHeader
  | badDeltaVersion
  | endOfNumber
  | endOfData
  | uninitializedData
  | srcOffsetOutsideData
  | copySourceOutsideView
  | copyTargetOutsideData
  | shortImmediateData
  | badOpcode
  | targetLengthMismatch
  | outOfFuel
  deriving DecidableEq, Repr

/-- `fd.readline()`: the bytes up to and including the first newline
(or everything when no newline remains), plus the rest of the stream. -/
def readline : Bytes → Bytes × Bytes
  | [] => ([], [])
  | b :: rest =>
    if b = 10 then ([10], rest)
    else
      let r := readline rest
      (b :: r.1, r.2)

/-- Python's regex `\s` on bytes: space, tab, newline, CR, VT, FF. -/
def isSpaceByte (b : Nat) : Bool :=
  b = 32 || b = 9 || b = 10 || b = 13 || b = 11 || b = 12

/-- ASCII decimal digit. -/
def isDigitByte (b : Nat) : Bool := 48 ≤ b && b ≤ 57

/-- `int()` of a run of ASCII digits. -/
def foldDigits (ds : Bytes) : Nat := ds.foldl (fun acc d => acc * 10 + (d - 48)) 0

/-- `re.fullmatch(b"(K|D)\\s+(\\d+)\\n", line)`: the command (`true` for `K`)
and the decimal size. -/
def parseKDLine (line : Bytes) : Option (Bool × Nat) :=
  match line with
  | [] => none
  | c :: rest =>
    if c = 75 ∨ c = 68 then
      let ws := rest.takeWhile isSpaceByte
      let r1 := rest.dropWhile isSpaceByte
      let ds := r1.takeWhile isDigitByte
      let r2 := r1.dropWhile isDigitByte
      if ws ≠ [] ∧ ds ≠ [] ∧ r2 = [10] then some (c = 75, foldDigits ds) else none
    else none

/-- `re.fullmatch(b"V\\s+(\\d+)\\n", line)`: the decimal size. -/
def parseVLine (line : Bytes) : Option Nat :=
  match line with
  | [] => none
  | c :: rest =>
    if c = 86 then
      let ws := rest.takeWhile isSpaceByte
      let r1 := rest.dropWhile isSpaceByte
      let ds := r1.takeWhile isDigitByte
      let r2 := r1.dropWhile isDigitByte
      if ws ≠ [] ∧ ds ≠ [] ∧ r2 = [10] then some (foldDigits ds) else none
    else none

/-- The `while True` loop of `process_props_block`, with explicit fuel (every
iteration of the source loop consumes at least the command line, so
`length of input + 1` fuel always suffices). -/
def process_props_go : Nat → List (Bytes × Option Bytes) → Bytes →
    Except SvnParseErr (List (Bytes × Option Bytes))
  | 0, _, _ => .error .outOfFuel
  | fuel + 1, props, fd =>
    let r := readline fd
    let line := r.1
    let rest := r.2
    if line = s2b "PROPS-END\n" then .ok props
    else if line = [] then .error .unterminatedPropsBlock
    else
      match parseKDLine line with
      | none => .error .badPropLine
      | some (isK, keySize) =>
        let key := rest.take keySize
        match rest.drop keySize with
        | [] => .error .missingNewlineAfterKey
        | b :: rest2 =>
          if b ≠ 10 then .error .missingNewlineAfterKey
          else if containsKey props key then .error .duplicateKey
          else if isK = false then process_props_go fuel (dictSet props key none) rest2
          else
            let rv := readline rest2
            match parseVLine rv.1 with
            | none => .error .badValueLine
            | some valueSize =>
              let value := rv.2.take valueSize
              match rv.2.drop valueSize with
              | [] => .error .missingNewlineAfterValue
              | b' :: rest5 =>
                if b' ≠ 10 then .error .missingNewlineAfterValue
                else process_props_go fuel (dictSet props key (some value)) rest5

/-- `process_props_block(owner, props)`: parse a property block into the
owner's property dictionary (`None` starts a fresh dictionary). -/
def process_props_block (props : Option (List (Bytes × Option Bytes))) (blockBytes : Bytes) :
    Except SvnParseErr (List (Bytes × Option Bytes)) :=
  process_props_go (blockBytes.length + 1) (props.getD []) blockBytes

/-- Decimal ASCII encoding of a natural (fuelled; `n + 1` fuel suffices). -/
def decBytesAux : Nat → Nat → Bytes
  | 0, _ => []
  | fuel + 1, n => if n < 10 then [n + 48] else decBytesAux fuel (n / 10) ++ [n % 10 + 48]

/-- Decimal ASCII encoding of a natural, as the dump format writes sizes. -/
def decBytes (n : Nat) : Bytes := decBytesAux (n + 1) n

/-- A property entry rendered in the dump's `K/V/D <len>` framing. -/
def serializePropEntry : Bytes × Option Bytes → Bytes
  | (k, some v) =>
    s2b "K " ++ decBytes k.length ++ [10] ++ k ++ [10] ++
      s2b "V " ++ decBytes v.length ++ [10] ++ v ++ [10]
  | (k, none) => s2b "D " ++ decBytes k.length ++ [10] ++ k ++ [10]

/-- A whole property block: framed entries followed by the terminator. -/
def serializeProps (entries : List (Bytes × Option Bytes)) : Bytes :=
  (entries.map serializePropEntry).flatten ++ s2b "PROPS-END\n"

theorem decBytesAux_spec : ∀ fuel n, n < fuel →
    decBytesAux fuel n ≠ [] ∧ (∀ b ∈ decBytesAux fuel n, 48 ≤ b ∧ b ≤ 57) ∧
      foldDigits (decBytesAux fuel n) = n := by
  intro fuel
  induction fuel with
  | zero => intro n h; omega
  | succ fuel ih =>
    intro n h
    by_cases h10 : n < 10
    · refine ⟨by simp [decBytesAux, h10], ?_, ?_⟩
      · intro b hb
        simp only [decBytesAux, h10, if_true, List.mem_singleton] at hb
        omega
      · simp [decBytesAux, h10, foldDigits]
    · have hdiv : n / 10 < fuel := by
        have h1 : n / 10 < n := Nat.div_lt_self (by omega) (by omega)
        omega
      obtain ⟨hne, hdig, hval⟩ := ih (n / 10) hdiv
      have hrw : decBytesAux (fuel + 1) n = decBytesAux fuel (n / 10) ++ [n % 10 + 48] := by
        simp [decBytesAux, h10]
      refine ⟨by simp [hrw], ?_, ?_⟩
      · intro b hb
        rw [hrw] at hb
        rcases List.mem_append.mp hb with hb | hb
        · exact hdig b hb
        · simp only [List.mem_singleton] at hb
          omega
      · rw [hrw]
        unfold foldDigits
        rw [List.foldl_append]
        unfold foldDigits at hval
        rw [hval]
        simp
        omega

theorem decBytes_digits (n : Nat) : ∀ b ∈ decBytes n, 48 ≤ b ∧ b ≤ 57 :=
  (decBytesAux_spec (n + 1) n (Nat.lt_succ_self n)).2.1

theorem decBytes_ne_nil (n : Nat) : decBytes n ≠ [] :=
  (decBytesAux_spec (n + 1) n (Nat.lt_succ_self n)).1

theorem foldDigits_decBytes (n : Nat) : foldDigits (decBytes n) = n :=
  (decBytesAux_spec (n + 1) n (Nat.lt_succ_self n)).2.2

theorem readline_append {l : Bytes} (rest : Bytes) (h : 10 ∉ l) :
    readline (l ++ 10 :: rest) = (l ++ [10], rest) := by
  induction l with
  | nil => simp [readline]
  | cons b bs ih =>
    have hb : b ≠ 10 := fun hc => h (hc ▸ List.mem_cons_self b bs)
    have hbs : 10 ∉ bs := fun hc => h (List.mem_cons_of_mem b hc)
    simp [readline, hb, ih hbs]

theorem takeWhile_append_of_all {p : Nat → Bool} {l l₂ : Bytes}
    (h : ∀ b ∈ l, p b = true) : (l ++ l₂).takeWhile p = l ++ l₂.takeWhile p := by
  induction l with
  | nil => rfl
  | cons b bs ih =>
    have hb : p b = true := h b (List.mem_cons_self b bs)
    simp [List.takeWhile, hb, ih (fun x hx => h x (List.mem_cons_of_mem b hx))]

theorem dropWhile_append_of_all {p : Nat → Bool} {l l₂ : Bytes}
    (h : ∀ b ∈ l, p b = true) : (l ++ l₂).dropWhile p = l₂.dropWhile p := by
  induction l with
  | nil => rfl
  | cons b bs ih =>
    have hb : p b = true := h b (List.mem_cons_self b bs)
    simp [List.dropWhile, hb, ih (fun x hx => h x (List.mem_cons_of_mem b hx))]

theorem parseKDLine_serialized (isK : Bool) (n : Nat) :
    parseKDLine ((if isK then 75 else 68) :: 32 :: (decBytes n ++ [10])) = some (isK, n) := by
  have hdig := decBytes_digits n
  have hall : ∀ b ∈ decBytes n, isDigitByte b = true := by
    intro b hb
    have := hdig b hb
    simp [isDigitByte]
    omega
  have hnotsp : ∀ b ∈ decBytes n, isSpaceByte b = false := by
    intro b hb
    have := hdig b hb
    simp [isSpaceByte]
    omega
  have htake : (decBytes n ++ [10]).takeWhile isSpaceByte = [] := by
    rcases hd : decBytes n with _ | ⟨b, bs⟩
    · exact absurd hd (decBytes_ne_nil n)
    · have hb : isSpaceByte b = false := hnotsp b (hd ▸ List.mem_cons_self b bs)
      simp [List.takeWhile, hb]
  have hdrop : (decBytes n ++ [10]).dropWhile isSpaceByte = decBytes n ++ [10] := by
    rcases hd : decBytes n with _ | ⟨b, bs⟩
    · exact absurd hd (decBytes_ne_nil n)
    · have hb : isSpaceByte b = false := hnotsp b (hd ▸ List.mem_cons_self b bs)
      simp [List.dropWhile, hb]
  have htake2 : (decBytes n ++ [10]).takeWhile isDigitByte = decBytes n := by
    rw [takeWhile_append_of_all hall]
    simp [List.takeWhile, isDigitByte]
  have hdrop2 : (decBytes n ++ [10]).dropWhile isDigitByte = [10] := by
    rw [dropWhile_append_of_all hall]
    simp [List.dropWhile, isDigitByte]
  cases isK with
  | true =>
    simp only [parseKDLine, if_true]
    rw [show ((32 : Nat) :: (decBytes n ++ [10])).takeWhile isSpaceByte
        = 32 :: (decBytes n ++ [10]).takeWhile isSpaceByte by simp [List.takeWhile, isSpaceByte]]
    rw [show ((32 : Nat) :: (decBytes n ++ [10])).dropWhile isSpaceByte
        = (decBytes n ++ [10]).dropWhile isSpaceByte by simp [List.dropWhile, isSpaceByte]]
    rw [htake, hdrop, htake2, hdrop2]
    simp [decBytes_ne_nil n, foldDigits_decBytes n]
  | false =>
    simp only [parseKDLine]
    rw [if_pos (by simp)]
    rw [show ((32 : Nat) :: (decBytes n ++ [10])).takeWhile isSpaceByte
        = 32 :: (decBytes n ++ [10]).takeWhile isSpaceByte by simp [List.takeWhile, isSpaceByte]]
    rw [show ((32 : Nat) :: (decBytes n ++ [10])).dropWhile isSpaceByte
        = (decBytes n ++ [10]).dropWhile isSpaceByte by simp [List.dropWhile, isSpaceByte]]
    rw [htake, hdrop, htake2, hdrop2]
    simp [decBytes_ne_nil n, foldDigits_decBytes n]

theorem parseVLine_serialized (n : Nat) :
    parseVLine (86 :: 32 :: (decBytes n ++ [10])) = some n := by
  have hdig := decBytes_digits n
  have hall : ∀ b ∈ decBytes n, isDigitByte b = true := by
    intro b hb
    have := hdig b hb
    simp [isDigitByte]
    omega
  have hnotsp : ∀ b ∈ decBytes n, isSpaceByte b = false := by
    intro b hb
    have := hdig b hb
    simp [isSpaceByte]
    omega
  have htake : (decBytes n ++ [10]).takeWhile isSpaceByte = [] := by
    rcases hd : decBytes n with _ | ⟨b, bs⟩
    · exact absurd hd (decBytes_ne_nil n)
    · have hb : isSpaceByte b = false := hnotsp b (hd ▸ List.mem_cons_self b bs)
      simp [List.takeWhile, hb]
  have hdrop : (decBytes n ++ [10]).dropWhile isSpaceByte = decBytes n ++ [10] := by
    rcases hd : decBytes n with _ | ⟨b, bs⟩
    · exact absurd hd (decBytes_ne_nil n)
    · have hb : isSpaceByte b = false := hnotsp b (hd ▸ List.mem_cons_self b bs)
      simp [List.dropWhile, hb]
  have htake2 : (decBytes n ++ [10]).takeWhile isDigitByte = decBytes n := by
    rw [takeWhile_append_of_all hall]
    simp [List.takeWhile, isDigitByte]
  have hdrop2 : (decBytes n ++ [10]).dropWhile isDigitByte = [10] := by
    rw [dropWhile_append_of_all hall]
    simp [List.dropWhile, isDigitByte]
  simp only [parseVLine, if_true]
  rw [show ((32 : Nat) :: (decBytes n ++ [10])).takeWhile isSpaceByte
      = 32 :: (decBytes n ++ [10]).takeWhile isSpaceByte by simp [List.takeWhile, isSpaceByte]]
  rw [show ((32 : Nat) :: (decBytes n ++ [10])).dropWhile isSpaceByte
      = (decBytes n ++ [10]).dropWhile isSpaceByte by simp [List.dropWhile, isSpaceByte]]
  rw [htake, hdrop, htake2, hdrop2]
  simp [decBytes_ne_nil n, foldDigits_decBytes n]

theorem ten_notin_cmdline {c : Nat} (hc : c ≠ 10) (n : Nat) :
    (10 : Nat) ∉ c :: 32 :: decBytes n := by
  intro h
  rcases List.mem_cons.mp h with h | h
  · exact hc h.symm
  rcases List.mem_cons.mp h with h | h
  · omega
  · have := decBytes_digits n 10 h
    omega

theorem containsKey_append [DecidableEq κ] (d₁ d₂ : List (κ × ν)) (k : κ) :
    containsKey (d₁ ++ d₂) k = (containsKey d₁ k || containsKey d₂ k) := by
  induction d₁ with
  | nil => simp [containsKey, dictGet]
  | cons e rest ih =>
    obtain ⟨k₀, v₀⟩ := e
    by_cases h₀ : k₀ = k
    · simp [containsKey, dictGet, h₀]
    · simpa [containsKey, dictGet, h₀] using ih

theorem dictSet_eq_append [DecidableEq κ] (d : List (κ × ν)) (k : κ) (v : ν)
    (h : containsKey d k = false) : dictSet d k v = d ++ [(k, v)] := by
  induction d with
  | nil => rfl
  | cons e rest ih =>
    obtain ⟨k₀, v₀⟩ := e
    simp only [containsKey, dictGet] at h
    by_cases h₀ : k₀ = k
    · simp [h₀] at h
    · simp only [dictSet, if_neg h₀, List.cons_append]
      rw [ih (by simpa [containsKey, dictGet, h₀] using h)]

/-- A serialized `K`/`D`/`V` command line read off the head of the stream. -/
theorem readline_cmdline {c : Nat} (hc10 : c ≠ 10) (n : Nat) (tail : Bytes) :
    readline (c :: 32 :: (decBytes n ++ 10 :: tail)) = (c :: 32 :: (decBytes n ++ [10]), tail) := by
  have h := readline_append (l := c :: 32 :: decBytes n) tail (ten_notin_cmdline hc10 n)
  simpa using h

/-- Parsing one serialized entry from the head of the stream steps exactly
as the source loop does: a duplicate key fails, a fresh key is stored. -/
theorem process_props_go_step (fuel : Nat) (props : List (Bytes × Option Bytes))
    (k : Bytes) (v : Option Bytes) (rest : Bytes) :
    process_props_go (fuel + 1) props (serializePropEntry (k, v) ++ rest) =
      if containsKey props k then .error .duplicateKey
      else process_props_go fuel (dictSet props k v) rest := by
  have hPE : s2b "PROPS-END\n" = [80, 82, 79, 80, 83, 45, 69, 78, 68, 10] := by decide
  have hK : s2b "K " = [75, 32] := by decide
  have hV : s2b "V " = [86, 32] := by decide
  have hD : s2b "D " = [68, 32] := by decide
  cases v with
  | none =>
    have hser : serializePropEntry (k, none) ++ rest
        = 68 :: 32 :: (decBytes k.length ++ 10 :: (k ++ 10 :: rest)) := by
      simp [serializePropEntry, hD]
    rw [hser]
    simp only [process_props_go]
    rw [readline_cmdline (by omega) k.length]
    simp only []
    rw [if_neg (by
      rw [hPE]
      simp)]
    rw [if_neg (by simp)]
    rw [show parseKDLine (68 :: 32 :: (decBytes k.length ++ [10]))
        = some (false, k.length) from by
      have := parseKDLine_serialized false k.length
      simpa using this]
    simp only [List.take_left, List.drop_left]
    simp
  | some v =>
    have hser : serializePropEntry (k, some v) ++ rest
        = 75 :: 32 :: (decBytes k.length ++
            10 :: (k ++ 10 :: (86 :: 32 :: (decBytes v.length ++ 10 :: (v ++ 10 :: rest))))) := by
      simp [serializePropEntry, hK, hV]
    rw [hser]
    simp only [process_props_go]
    rw [readline_cmdline (by omega) k.length]
    simp only []
    rw [if_neg (by
      rw [hPE]
      simp)]
    rw [if_neg (by simp)]
    rw [show parseKDLine (75 :: 32 :: (decBytes k.length ++ [10]))
        = some (true, k.length) from by
      have := parseKDLine_serialized true k.length
      simpa using this]
    simp only [List.take_left, List.drop_left]
    by_cases hc : containsKey props k = true
    · simp [hc]
    · simp only [Bool.not_eq_true] at hc
      simp only [hc]
      rw [readline_cmdline (by omega) v.length]
      rw [parseVLine_serialized v.length]
      simp only [List.take_left, List.drop_left]
      simp

/-- Parsing the serialization of entries whose keys avoid the accumulated
dictionary and are themselves distinct appends them all in order. -/
theorem process_props_go_serialized_ok :
    ∀ (entries : List (Bytes × Option Bytes)) (fuel : Nat)
      (props : List (Bytes × Option Bytes)),
    entries.length < fuel →
    (∀ kk ∈ entries.map Prod.fst, containsKey props kk = false) →
    (entries.map Prod.fst).Nodup →
    process_props_go fuel props ((entries.map serializePropEntry).flatten ++ s2b "PROPS-END\n")
      = .ok (props ++ entries) := by
  intro entries
  induction entries with
  | nil =>
    intro fuel props hf _ _
    cases fuel with
    | zero => omega
    | succ fuel =>
      have hrl : readline (s2b "PROPS-END\n") = (s2b "PROPS-END\n", []) := by decide
      simp only [List.map_nil, List.flatten_nil, List.nil_append, process_props_go, hrl]
      simp
  | cons e rest ih =>
    intro fuel props hf hfree hnd
    obtain ⟨k₀, v₀⟩ := e
    cases fuel with
    | zero => omega
    | succ fuel =>
      have hflat : ((((k₀, v₀) :: rest).map serializePropEntry).flatten ++ s2b "PROPS-END\n")
          = serializePropEntry (k₀, v₀) ++
              ((rest.map serializePropEntry).flatten ++ s2b "PROPS-END\n") := by
        simp [List.append_assoc]
      rw [hflat, process_props_go_step]
      have hk₀ : containsKey props k₀ = false :=
        hfree k₀ (by simp)
      rw [if_neg (by simp [hk₀])]
      rw [dictSet_eq_append props k₀ v₀ hk₀]
      simp only [List.map_cons, List.nodup_cons] at hnd
      rw [ih fuel (props ++ [(k₀, v₀)]) (by simpa using hf) ?_ hnd.2]
      · simp
      · intro kk hkk
        rw [containsKey_append]
        have h1 : containsKey props kk = false := hfree kk (by simp [hkk])
        have h2 : containsKey [(k₀, v₀)] kk = false := by
          have hne0 : kk ≠ k₀ := fun hc => hnd.1 (hc ▸ hkk)
          have hne : ¬ (k₀ = kk) := fun hc => hne0 hc.symm
          simp [containsKey, dictGet, hne]
        simp [h1, h2]

/-- Parsing the serialization of entries with a repeated key (or a key
already present in the accumulated dictionary) fails. -/
theorem process_props_go_serialized_err :
    ∀ (entries : List (Bytes × Option Bytes)) (fuel : Nat)
      (props : List (Bytes × Option Bytes)),
    entries.length < fuel →
    ((∃ kk ∈ entries.map Prod.fst, containsKey props kk = true) ∨
      ¬ (entries.map Prod.fst).Nodup) →
    isErr (process_props_go fuel props
      ((entries.map serializePropEntry).flatten ++ s2b "PROPS-END\n")) = true := by
  intro entries
  induction entries with
  | nil =>
    intro fuel props _ hprem
    rcases hprem with ⟨kk, hkk, _⟩ | hnd
    · simp at hkk
    · simp at hnd
  | cons e rest ih =>
    intro fuel props hf hprem
    obtain ⟨k₀, v₀⟩ := e
    cases fuel with
    | zero => omega
    | succ fuel =>
      have hflat : ((((k₀, v₀) :: rest).map serializePropEntry).flatten ++ s2b "PROPS-END\n")
          = serializePropEntry (k₀, v₀) ++
              ((rest.map serializePropEntry).flatten ++ s2b "PROPS-END\n") := by
        simp [List.append_assoc]
      rw [hflat, process_props_go_step]
      by_cases hc : containsKey props k₀ = true
      · simp [hc, isErr]
      · rw [if_neg (by simp [hc])]
        refine ih fuel (dictSet props k₀ v₀) (by simpa using hf) ?_
        have hself : containsKey (dictSet props k₀ v₀) k₀ = true := by
          simp [containsKey, dictGet_dictSet_self]
        rcases hprem with ⟨kk, hkk, hck⟩ | hnd
        · simp only [List.map_cons] at hkk
          rcases List.mem_cons.mp hkk with hkk | hkk
          · exact absurd (hkk ▸ hck) hc
          · left
            refine ⟨kk, hkk, ?_⟩
            by_cases hkk₀ : kk = k₀
            · exact hkk₀ ▸ hself
            · rwa [containsKey, dictGet_dictSet_ne props v₀ hkk₀]
        · simp only [List.map_cons, List.nodup_cons, not_and_or] at hnd
          rcases hnd with hmem | hnd
          · left
            rw [not_not] at hmem
            exact ⟨k₀, by simpa using hmem, hself⟩
          · right
            exact hnd

theorem serializePropEntry_length_pos (e : Bytes × Option Bytes) :
    1 ≤ (serializePropEntry e).length := by
  obtain ⟨k, v⟩ := e
  cases v with
  | none => simp [serializePropEntry, s2b]
  | some v => simp [serializePropEntry, s2b]

theorem entries_length_le_serialized (entries : List (Bytes × Option Bytes)) :
    entries.length ≤ ((entries.map serializePropEntry).flatten).length := by
  induction entries with
  | nil => simp
  | cons e rest ih =>
    simp only [List.map_cons, List.flatten_cons, List.length_append, List.length_cons]
    have := serializePropEntry_length_pos e
    omega

/-- Claim C10: parsing a property block fails with a parse error when the
same key name occurs more than once within the block (whether as `K`
add/change or `D` delete entries); with pairwise-distinct keys the block
parses into exactly its entries. -/
theorem props_block_duplicate_key_fails (entries : List (Bytes × Option Bytes)) :
    (¬ (entries.map Prod.fst).Nodup →
      isErr (process_props_block none (serializeProps entries)) = true) ∧
    ((entries.map Prod.fst).Nodup →
      process_props_block none (serializeProps entries) = .ok entries) := by
  have hfuel : entries.length < (serializeProps entries).length + 1 := by
    have h1 := entries_length_le_serialized entries
    have h2 : (serializeProps entries).length
        = ((entries.map serializePropEntry).flatten).length + (s2b "PROPS-END\n").length := by
      simp [serializeProps]
    omega
  constructor
  · intro hnd
    exact process_props_go_serialized_err entries _ [] hfuel (Or.inr hnd)
  · intro hnd
    have := process_props_go_serialized_ok entries ((serializeProps entries).length + 1) []
      hfuel (by intro kk _; simp [containsKey, dictGet]) hnd
    simpa [process_props_block, serializeProps] using this

/-- Witness for C10: a block repeating key `a` (once as `K`, once as `D`)
fails to parse; a block with distinct keys `a`, `b` parses to its entries. -/
theorem props_block_duplicate_key_fails_witness :
    isErr (process_props_block none
        (serializeProps [(s2b "a", some (s2b "x")), (s2b "a", none)])) = true ∧
    process_props_block none
        (serializeProps [(s2b "a", some (s2b "x")), (s2b "b", none)])
      = .ok [(s2b "a", some (s2b "x")), (s2b "b", none)] :=
  ⟨(props_block_duplicate_key_fails [(s2b "a", some (s2b "x")), (s2b "a", none)]).1
      (by decide),
    (props_block_duplicate_key_fails [(s2b "a", some (s2b "x")), (s2b "b", none)]).2
      (by decide)⟩

/-! ## Node records (`svn_dump_reader.node_record.read`) — claims C6, C8, C9 -/

/-- ASCII hexadecimal digit. -/
def isHexDigitByte (b : Nat) : Bool :=
  (48 ≤ b && b ≤ 57) || (65 ≤ b && b ≤ 70) || (97 ≤ b && b ≤ 102)

/-- Value of one hexadecimal digit byte. -/
def hexVal (b : Nat) : Nat :=
  if b ≤ 57 then b - 48 else if b ≤ 70 then b - 55 else b - 87

/-- `bytes.fromhex`: consecutive digit pairs to bytes. -/
def hexPairs : Bytes → Bytes
  | a :: b :: rest => (hexVal a * 16 + hexVal b) :: hexPairs rest
  | _ => []

/-- `decode_int_value`: a non-empty all-decimal value (`re.fullmatch(rb'\d+', …)`). -/
def decode_int_value (value : Bytes) : Except SvnParseErr Nat :=
  if value ≠ [] ∧ value.all isDigitByte then .ok (foldDigits value) else .error .notDecimal

/-- `decode_sha1_value`: 40 hexadecimal digits, converted to 20 bytes. -/
def decode_sha1_value (value : Bytes) : Except SvnParseErr Bytes :=
  if value.length = 40 ∧ value.all isHexDigitByte then .ok (hexPairs value)
  else .error .badSha1

/-- `decode_md5_value`: 32 hexadecimal digits, converted to 16 bytes. -/
def decode_md5_value (value : Bytes) : Except SvnParseErr Bytes :=
  if value.length = 32 ∧ value.all isHexDigitByte then .ok (hexPairs value)
  else .error .badMd5

/-- `decode_bool_value`: the value must be `true` or `false`, and the
function returns Python `bool(value)` — the truthiness of the byte string,
which is `True` for any non-empty value, hence also for `false`. -/
def decode_bool_value (value : Bytes) : Except SvnParseErr Bool :=
  if value ≠ s2b "true" ∧ value ≠ s2b "false" then .error .badBool
  else .ok (value ≠ [])

/-- The fields `node_record.read` collects from the header lines and the
content block (hash fields hold decoded bytes). -/
structure NodeState where
  path : Bytes := []
  kind : Option Bytes := none
  action : Option Bytes := none
  text_content_len : Option Nat := none
  content_len : Option Nat := none
  copyfrom_rev : Option Nat := none
  copyfrom_path : Option Bytes := none
  text_content_sha1 : Option Bytes := none
  text_content_md5 : Option Bytes := none
  copy_source_md5 : Option Bytes := none
  copy_source_sha1 : Option Bytes := none
  prop_content_len : Option Nat := none
  text_is_delta : Bool := false
  props_is_delta : Bool := false
  text_delta_base_sha1 : Option Bytes := none
  text_delta_base_md5 : Option Bytes := none
  props : Option (List (Bytes × Option Bytes)) := none
  text_content : Option Bytes := none
  deriving DecidableEq, Repr

/-- The fresh node state for a record at `path` (`node_record.__init__`
plus `node.path = record[0][2]`). -/
def nodeInit (path : Bytes) : NodeState := { path := path }

/-- One iteration of the header loop of `node_record.read` (the
`for (line, tag, value) in record[1:]` chain); unknown tags only warn. -/
def node_read_header (s : NodeState) (tag value : Bytes) : Except SvnParseErr NodeState :=
  if tag = s2b "Node-kind" then
    if value ≠ s2b "file" ∧ value ≠ s2b "dir" then .error .badNodeKind
    else .ok { s with kind := some value }
  else if tag = s2b "Node-action" then
    if value ≠ s2b "change" ∧ value ≠ s2b "add" ∧ value ≠ s2b "delete" ∧ value ≠ s2b "replace"
    then .error .badNodeAction
    else .ok { s with action := some value }
  else if tag = s2b "Text-content-length" then
    match decode_int_value value with
    | .error e => .error e
    | .ok n => .ok { s with text_content_len := some n }
  else if tag = s2b "Content-length" then
    match decode_int_value value with
    | .error e => .error e
    | .ok n => .ok { s with content_len := some n }
  else if tag = s2b "Node-copyfrom-rev" then
    match decode_int_value value with
    | .error e => .error e
    | .ok n => .ok { s with copyfrom_rev := some n }
  else if tag = s2b "Node-copyfrom-path" then .ok { s with copyfrom_path := some value }
  else if tag = s2b "Text-content-sha1" then
    match decode_sha1_value value with
    | .error e => .error e
    | .ok h => .ok { s with text_content_sha1 := some h }
  else if tag = s2b "Text-content-md5" then
    match decode_md5_value value with
    | .error e => .error e
    | .ok h => .ok { s with text_content_md5 := some h }
  else if tag = s2b "Text-copy-source-md5" then
    match decode_md5_value value with
    | .error e => .error e
    | .ok h => .ok { s with copy_source_md5 := some h }
  else if tag = s2b "Text-copy-source-sha1" then
    match decode_sha1_value value with
    | .error e => .error e
    | .ok h => .ok { s with copy_source_sha1 := some h }
  else if tag = s2b "Prop-content-length" then
    match decode_int_value value with
    | .error e => .error e
    | .ok n => .ok { s with prop_content_len := some n }
  else if tag = s2b "Text-delta" then
    match decode_bool_value value with
    | .error e => .error e
    | .ok b => .ok { s with text_is_delta := b }
  else if tag = s2b "Prop-delta" then
    match decode_bool_value value with
    | .error e => .error e
    | .ok b => .ok { s with props_is_delta := b }
  else if tag = s2b "Text-delta-base-sha1" then
    match decode_sha1_value value with
    | .error e => .error e
    | .ok h => .ok { s with text_delta_base_sha1 := some h }
  else if tag = s2b "Text-delta-base-md5" then
    match decode_md5_value value with
    | .error e => .error e
    | .ok h => .ok { s with text_delta_base_md5 := some h }
  else .ok s

/-- The whole header loop. -/
def node_read_headers : NodeState → List (Bytes × Bytes) → Except SvnParseErr NodeState
  | s, [] => .ok s
  | s, (tag, value) :: rest =>
    match node_read_header s tag value with
    | .error e => .error e
    | .ok s' => node_read_headers s' rest

/-- `read_content(fd, length)`: exactly `length` bytes followed by a
newline. -/
def read_content (fd : Bytes) (length : Nat) : Except SvnParseErr (Bytes × Bytes) :=
  let d := fd.take length
  if d.length ≠ length then .error .contentTooShort
  else
    match fd.drop length with
    | [] => .error .missingNewlineAfterContent
    | b :: rest => if b ≠ 10 then .error .missingNewlineAfterContent else .ok (d, rest)

/-- Python truthiness of an optional length. -/
def truthyOptNat : Option Nat → Bool
  | some n => decide (n ≠ 0)
  | none => false

/-- The content-handling part of `node_record.read` (after the header
loop): read the content block, parse the property sub-block, slice the text
payload and verify its hash.  The hash functions are abstract parameters;
everything proved about this definition holds for the real SHA-1/MD5. -/
def node_read_content (verify : Bool) (sha1f md5f : Bytes → Bytes)
    (s : NodeState) (fd : Bytes) : Except SvnParseErr NodeState :=
  match s.content_len with
  | some cl =>
    match read_content fd cl with
    | .error e => .error e
    | .ok (content, _) =>
      let propStep : Except SvnParseErr (NodeState × Nat) :=
        if truthyOptNat s.prop_content_len then
          match process_props_block s.props (content.take (s.prop_content_len.getD 0)) with
          | .error e => .error e
          | .ok props => .ok ({ s with props := some props }, s.prop_content_len.getD 0)
        else .ok (s, 0)
      match propStep with
      | .error e => .error e
      | .ok (s, p) =>
        match s.text_content_len with
        | some t =>
          if cl ≠ p + t then .error .contentLengthMismatch
          else
            let text := content.drop p
            let s := { s with text_content := some text, prop_content_len := some p }
            if ¬ s.text_is_delta ∧ verify then
              match s.text_content_sha1 with
              | some h => if sha1f text ≠ h then .error .sha1Mismatch else .ok s
              | none =>
                match s.text_content_md5 with
                | some h => if md5f text ≠ h then .error .md5Mismatch else .ok s
                | none => .ok s
            else .ok s
        | none => .ok { s with prop_content_len := some p }
  | none =>
    if truthyOptNat s.text_content_len || truthyOptNat s.prop_content_len then
      .error .contentLengthMismatch
    else .ok s

/-- The final `validate kind, action and data` block of `node_record.read`. -/
def node_validate (s : NodeState) : Except SvnParseErr NodeState :=
  if s.kind = some (s2b "dir") ∧ s.text_content ≠ none then .error .dirWithText
  else if s.kind = some (s2b "dir") ∧ s.action = some (s2b "change") ∧
      ¬ truthyOptNat s.prop_content_len then .error .dirChangeWithoutProps
  else if s.action = some (s2b "delete") then
    if s.text_content ≠ none then .error .deleteWithText
    else if truthyOptNat s.prop_content_len then .error .deleteWithProps
    else if s.copyfrom_path ≠ none then .error .deleteWithCopySource
    else .ok s
  else if s.action = some (s2b "change") ∧ s.copyfrom_path ≠ none then
    .error .changeWithCopySource
  else .ok s

/-- `node_record.read`: header loop, then content handling, then
validation.  `headers` is `record[1:]` as `(tag, value)` pairs and `fd` is
the stream after the record's header block. -/
def node_record_read (verify : Bool) (sha1f md5f : Bytes → Bytes)
    (path : Bytes) (headers : List (Bytes × Bytes)) (fd : Bytes) :
    Except SvnParseErr NodeState :=
  match node_read_headers (nodeInit path) headers with
  | .error e => .error e
  | .ok s =>
    match node_read_content verify sha1f md5f s fd with
    | .error e => .error e
    | .ok s => node_validate s

/-- Claim C6 counterexample: a node record whose `Node-action` is `hide` is
rejected by the dump record reader with a parse error (the claim asserts it
is accepted). -/
theorem node_action_hide_is_rejected :
    node_record_read false (fun _ => []) (fun _ => []) (s2b "p")
      [(s2b "Node-action", s2b "hide")] [] = .error .badNodeAction := rfl

/-- Claim C6 (amended): the dump record reader accepts exactly the
`Node-action` values `add`, `change`, `delete` and `replace` — `hide` and
every other value fail with a parse error — and a record carrying any of
the four accepted actions (and no content) reads successfully. -/
theorem node_action_accepts_exactly_four (s : NodeState) (v : Bytes) :
    (node_read_header s (s2b "Node-action") v =
      if v = s2b "change" ∨ v = s2b "add" ∨ v = s2b "delete" ∨ v = s2b "replace"
      then .ok { s with action := some v }
      else .error .badNodeAction) ∧
    isErr (node_record_read false (fun _ => []) (fun _ => []) (s2b "p")
      [(s2b "Node-action", s2b "add")] []) = false ∧
    isErr (node_record_read false (fun _ => []) (fun _ => []) (s2b "p")
      [(s2b "Node-action", s2b "change")] []) = false ∧
    isErr (node_record_read false (fun _ => []) (fun _ => []) (s2b "p")
      [(s2b "Node-action", s2b "delete")] []) = false ∧
    isErr (node_record_read false (fun _ => []) (fun _ => []) (s2b "p")
      [(s2b "Node-action", s2b "replace")] []) = false := by
  refine ⟨?_, by decide, by decide, by decide, by decide⟩
  simp only [node_read_header]
  rw [if_neg (by decide), if_pos trivial]
  by_cases hv : v = s2b "change" ∨ v = s2b "add" ∨ v = s2b "delete" ∨ v = s2b "replace"
  · rcases hv with h | h | h | h <;> simp [h]
  · push_neg at hv
    simp [hv.1, hv.2.1, hv.2.2.1, hv.2.2.2]

/-- Claim C8: the boolean header decoder maps both `true` and `false` to
`True` (Python `bool(value)` on a non-empty byte string) and rejects every
other value, so `Text-delta: false` and `Prop-delta: false` set the
`text_is_delta` / `props_is_delta` flags to `True`. -/
theorem decode_bool_value_false_gives_true (s : NodeState) (v : Bytes)
    (h1 : v ≠ s2b "true") (h2 : v ≠ s2b "false") :
    decode_bool_value (s2b "true") = .ok true ∧
    decode_bool_value (s2b "false") = .ok true ∧
    decode_bool_value v = .error .badBool ∧
    node_read_header s (s2b "Text-delta") (s2b "false")
      = .ok { s with text_is_delta := true } ∧
    node_read_header s (s2b "Prop-delta") (s2b "false")
      = .ok { s with props_is_delta := true } := by
  refine ⟨rfl, rfl, ?_, ?_, ?_⟩
  · simp [decode_bool_value, h1, h2]
  · simp only [node_read_header]
    rw [if_neg (by decide), if_neg (by decide), if_neg (by decide), if_neg (by decide),
      if_neg (by decide), if_neg (by decide), if_neg (by decide), if_neg (by decide),
      if_neg (by decide), if_neg (by decide), if_neg (by decide), if_pos trivial]
    rw [show decode_bool_value (s2b "false") = .ok true from rfl]
  · simp only [node_read_header]
    rw [if_neg (by decide), if_neg (by decide), if_neg (by decide), if_neg (by decide),
      if_neg (by decide), if_neg (by decide), if_neg (by decide), if_neg (by decide),
      if_neg (by decide), if_neg (by decide), if_neg (by decide), if_neg (by decide),
      if_pos trivial]
    rw [show decode_bool_value (s2b "false") = .ok true from rfl]

/-- Witness for C8 at a concrete rejected value. -/
theorem decode_bool_value_false_gives_true_witness :
    decode_bool_value (s2b "true") = .ok true ∧
    decode_bool_value (s2b "false") = .ok true ∧
    decode_bool_value (s2b "x") = .error .badBool ∧
    node_read_header (nodeInit []) (s2b "Text-delta") (s2b "false")
      = .ok { nodeInit [] with text_is_delta := true } ∧
    node_read_header (nodeInit []) (s2b "Prop-delta") (s2b "false")
      = .ok { nodeInit [] with props_is_delta := true } :=
  decode_bool_value_false_gives_true (nodeInit []) (s2b "x") (by decide) (by decide)

theorem node_validate_ok_shape {s₀ s : NodeState} (hok : node_validate s₀ = .ok s) :
    ¬ (s.action = some (s2b "delete") ∧ s.text_content ≠ none) ∧
    ¬ (s.action = some (s2b "delete") ∧ truthyOptNat s.prop_content_len = true) ∧
    ¬ (s.action = some (s2b "delete") ∧ s.copyfrom_path ≠ none) ∧
    ¬ (s.action = some (s2b "change") ∧ s.copyfrom_path ≠ none) := by
  unfold node_validate at hok
  split_ifs at hok with h1 h2 h3 h4 h5 h6 h7
  · -- the `ok` branch inside the delete sub-chain
    obtain rfl : s₀ = s := by cases hok; rfl
    refine ⟨fun hx => h4 hx.2, fun hx => h5 hx.2, fun hx => h6 hx.2, fun hx => ?_⟩
    have hcd : some (s2b "change") = some (s2b "delete") := hx.1.symm.trans h3
    exact absurd hcd (by decide)
  · -- the final `ok` branch
    obtain rfl : s₀ = s := by cases hok; rfl
    exact ⟨fun hx => h3 hx.1, fun hx => h3 hx.1, fun hx => h3 hx.1, fun hx => h7 hx⟩

/-- Claim C9: a delete node that supplies text content, a non-empty
property block or a copy source fails validation, as does a change node
with a copy source; consequently no successfully read node record has any
of those shapes. -/
theorem node_delete_change_validation (s : NodeState)
    (h : (s.action = some (s2b "delete") ∧
            (s.text_content ≠ none ∨ truthyOptNat s.prop_content_len = true ∨
              s.copyfrom_path ≠ none)) ∨
          (s.action = some (s2b "change") ∧ s.copyfrom_path ≠ none)) :
    isErr (node_validate s) = true ∧
    (∀ (verify : Bool) (sha1f md5f : Bytes → Bytes) (path : Bytes)
        (headers : List (Bytes × Bytes)) (fd : Bytes) (s' : NodeState),
      node_record_read verify sha1f md5f path headers fd = .ok s' →
      ¬ (s'.action = some (s2b "delete") ∧ s'.text_content ≠ none) ∧
      ¬ (s'.action = some (s2b "delete") ∧ truthyOptNat s'.prop_content_len = true) ∧
      ¬ (s'.action = some (s2b "delete") ∧ s'.copyfrom_path ≠ none) ∧
      ¬ (s'.action = some (s2b "change") ∧ s'.copyfrom_path ≠ none)) := by
  constructor
  · rcases hv : node_validate s with e | s'
    · simp [isErr]
    · exfalso
      have hshape := node_validate_ok_shape hv
      have hss : s' = s := by
        unfold node_validate at hv
        split_ifs at hv <;> cases hv <;> rfl
      rw [hss] at hshape
      rcases h with ⟨hdel, hbad⟩ | hch
      · rcases hbad with hb | hb | hb
        · exact hshape.1 ⟨hdel, hb⟩
        · exact hshape.2.1 ⟨hdel, hb⟩
        · exact hshape.2.2.1 ⟨hdel, hb⟩
      · exact hshape.2.2.2 hch
  · intro verify sha1f md5f path headers fd s' hok
    rcases hh : node_read_headers (nodeInit path) headers with e | s₀
    · simp [node_record_read, hh] at hok
    · rcases hc : node_read_content verify sha1f md5f s₀ fd with e | s₁
      · simp [node_record_read, hh, hc] at hok
      · simp only [node_record_read, hh, hc] at hok
        exact node_validate_ok_shape hok

/-- Witness for C9: a delete node carrying text content fails validation. -/
theorem node_delete_change_validation_witness :
    isErr (node_validate
      { nodeInit [] with action := some (s2b "delete"), text_content := some [] }) = true :=
  (node_delete_change_validation
    { nodeInit [] with action := some (s2b "delete"), text_content := some [] }
    (Or.inl ⟨rfl, Or.inl (by decide)⟩)).1

/-! ## svndiff delta decoding (`node_record.apply_delta`) — claims C1, C2 -/

/-- The loop of `get_int`: 7-bit groups, high bit is the continuation
flag. -/
def get_int_loop : Bytes → Nat → Except SvnParseErr (Nat × Bytes)
  | [], _ => .error .endOfNumber
  | b :: rest, num =>
    let num2 := num * 128 + (b &&& 127)
    if b &&& 128 = 0 then .ok (num2, rest) else get_int_loop rest num2

/-- `get_int(fd)`: decode one varint off the stream. -/
def get_int (fd : Bytes) : Except SvnParseErr (Nat × Bytes) := get_int_loop fd 0

/-- `get_int(fd, eof_ok=True)`: `none` on immediate end of data. -/
def get_int_eof_ok (fd : Bytes) : Except SvnParseErr (Option (Nat × Bytes)) :=
  match fd with
  | [] => .ok none
  | _ => (get_int fd).map some

/-- `get_data(fd, length, ver)` of `node_record.apply_delta`.  For version
0 the section bytes are read directly.  For versions 1 and 2 the source
reads the uncompressed-length varint and then evaluates the local variable
`data`, which has not been assigned on any of those paths (`return data`
when the stated and uncompressed lengths are equal,
`zlib.decompress(data)` for version 1, `lz4.frame.decompress(data)` for
version 2), so Python raises `UnboundLocalError` before any section byte
is consumed; that state is modelled as the `uninitializedData` error. -/
def get_data (fd : Bytes) (length : Nat) (ver : Nat) : Except SvnParseErr (Bytes × Bytes) :=
  if ver = 0 then
    let data := fd.take length
    if data.length ≠ length then .error .endOfData
    else .ok (data, fd.drop length)
  else
    match get_int fd with
    | .error e => .error e
    | .ok _ => .error .uninitializedData

/-- The `while copy_len:` loop of the copy-from-target instruction: copy in
chunks bounded by the bytes already produced, re-reading just-written
bytes.  Fuelled; whenever `offset` is inside the view every iteration
copies at least one byte, so `copy_len + 1` fuel suffices. -/
def copy_target_loop : Nat → Bytes → Nat → Nat → Option Bytes
  | 0, _, _, _ => none
  | _ + 1, target_view, _, 0 => some target_view
  | fuel + 1, target_view, offset, copy_len + 1 =>
    let cl := copy_len + 1
    let to_copy := if offset + cl > target_view.length then target_view.length - offset else cl
    copy_target_loop fuel (target_view ++ ((target_view.drop offset).take to_copy))
      (offset + to_copy) (cl - to_copy)

/-- One window's instruction loop (the inner `while True:` of
`apply_delta`), with explicit fuel (each iteration consumes the opcode
byte, so `length of instructions + 1` fuel suffices).  The
trivial-instruction statistics counters of the source are not modelled. -/
def run_instructions : Nat → Bytes → Nat → Nat → Bytes → Bytes → Bytes →
    Except SvnParseErr Bytes
  | 0, _, _, _, _, _, _ => .error .outOfFuel
  | fuel + 1, base_text, source_offset, source_view_length, instrs, dataSec, target_view =>
    match instrs with
    | [] => .ok target_view
    | ib :: irest =>
      let opcode := ib &&& 0xC0
      let cl0 := ib &&& 0x3F
      match (if cl0 = 0 then get_int irest else .ok (cl0, irest) :
          Except SvnParseErr (Nat × Bytes)) with
      | .error e => .error e
      | .ok (copy_len, irest) =>
        if opcode = 0x00 then
          -- copy from source view
          match get_int irest with
          | .error e => .error e
          | .ok (offset, irest) =>
            if offset + copy_len > source_view_length then .error .copySourceOutsideView
            else
              run_instructions fuel base_text source_offset source_view_length irest dataSec
                (target_view ++ ((base_text.drop (offset + source_offset)).take copy_len))
        else if opcode = 0x40 then
          -- copy from target view
          match get_int irest with
          | .error e => .error e
          | .ok (offset, irest) =>
            if offset ≥ target_view.length then .error .copyTargetOutsideData
            else
              match copy_target_loop (copy_len + 1) target_view offset copy_len with
              | none => .error .outOfFuel
              | some tv =>
                run_instructions fuel base_text source_offset source_view_length irest dataSec tv
        else if opcode = 0x80 then
          -- copy from new (immediate) data
          let to_copy := dataSec.take copy_len
          if to_copy.length ≠ copy_len then .error .shortImmediateData
          else
            run_instructions fuel base_text source_offset source_view_length irest
              (dataSec.drop copy_len) (target_view ++ to_copy)
        else .error .badOpcode

/-- The window loop of `apply_delta`, fuelled (every window consumes at
least the source-offset varint byte, so `length of stream + 1` fuel
suffices). -/
def apply_delta_windows : Nat → Bytes → Nat → Bytes → Bytes → Except SvnParseErr Bytes
  | 0, _, _, _, _ => .error .outOfFuel
  | fuel + 1, base_text, version, fd, target_data =>
    match get_int_eof_ok fd with
    | .error e => .error e
    | .ok none => .ok target_data
    | .ok (some (source_offset, fd)) =>
      match get_int fd with
      | .error e => .error e
      | .ok (source_view_length, fd) =>
        match get_int fd with
        | .error e => .error e
        | .ok (target_view_length, fd) =>
          match get_int fd with
          | .error e => .error e
          | .ok (instructions_length, fd) =>
            match get_int fd with
            | .error e => .error e
            | .ok (data_length, fd) =>
              if source_offset + source_view_length > base_text.length then
                .error .srcOffsetOutsideData
              else
                match get_data fd instructions_length version with
                | .error e => .error e
                | .ok (instructions, fd) =>
                  match get_data fd data_length version with
                  | .error e => .error e
                  | .ok (dataSec, fd) =>
                    match run_instructions (instructions.length + 1) base_text source_offset
                        source_view_length instructions dataSec [] with
                    | .error e => .error e
                    | .ok target_view =>
                      if target_view.length ≠ target_view_length then
                        .error .targetLengthMismatch
                      else apply_delta_windows fuel base_text version fd
                        (target_data ++ target_view)

/-- `node_record.apply_delta(base_text)`, with the node's text content as
the delta buffer: check the `SVN` + version header and run the window
loop. -/
def apply_delta (delta base_text : Bytes) : Except SvnParseErr Bytes :=
  match delta with
  | s :: v :: n :: version :: rest =>
    if s = 83 ∧ v = 86 ∧ n = 78 then
      if version > 2 then .error .badDeltaVersion
      else apply_delta_windows (rest.length + 1) base_text version rest []
    else .error .badDeltaHeader
  | _ => .error .badDeltaHeader

/-- Claim C1 (code bug): for svndiff versions 1 and 2, `get_data` fails on
every input.  The source reads the uncompressed-length varint and then
evaluates the unassigned local `data`, raising `UnboundLocalError` on every
path — including well-formed verbatim sections whose stated length equals
the uncompressed length.  The concrete delta is a well-formed one-window
v1 delta with both sections stored verbatim (stated length = uncompressed
length), which the claim says must decode successfully. -/
theorem get_data_v1_v2_always_fails (fd : Bytes) (length ver : Nat) (hv : ver ≠ 0) :
    (∃ e, get_data fd length ver = .error e) ∧
    (∀ n rest, get_int fd = .ok (n, rest) →
      get_data fd length ver = .error .uninitializedData) ∧
    apply_delta ([83, 86, 78, 1] ++ [0, 0, 1, 1, 1] ++ ([1] ++ [129]) ++ ([1] ++ [120])) []
      = .error .uninitializedData := by
  refine ⟨?_, ?_, rfl⟩
  · unfold get_data
    rw [if_neg hv]
    rcases get_int fd with e | p
    · exact ⟨e, rfl⟩
    · exact ⟨.uninitializedData, rfl⟩
  · intro n rest hok
    unfold get_data
    rw [if_neg hv, hok]

/-- Witness for C1 at a concrete version-1 call. -/
theorem get_data_v1_v2_always_fails_witness :
    (∃ e, get_data [0] 5 1 = .error e) ∧
    (∀ n rest, get_int [0] = .ok (n, rest) →
      get_data [0] 5 1 = .error .uninitializedData) ∧
    apply_delta ([83, 86, 78, 1] ++ [0, 0, 1, 1, 1] ++ ([1] ++ [129]) ++ ([1] ++ [120])) []
      = .error .uninitializedData :=
  get_data_v1_v2_always_fails [0] 5 1 (by decide)

theorem copy_target_loop_spec : ∀ (fuel : Nat) (tv : Bytes) (offset cl : Nat),
    offset < tv.length → cl < fuel →
    ∃ r, copy_target_loop fuel tv offset cl = some r ∧
      r.length = tv.length + cl ∧
      (∀ i, i < tv.length → r[i]? = tv[i]?) ∧
      (∀ i, i < cl → r[tv.length + i]? = r[offset + i]?) := by
  intro fuel
  induction fuel with
  | zero => intro tv offset cl _ h; omega
  | succ fuel ih =>
    intro tv offset cl hoff hcl
    cases cl with
    | zero =>
      exact ⟨tv, rfl, by omega, fun i _ => rfl, fun i hi => absurd hi (by omega)⟩
    | succ m =>
      set clv := m + 1 with hclv
      set t := if offset + clv > tv.length then tv.length - offset else clv with ht
      have ht1 : 1 ≤ t := by
        rw [ht]
        split <;> omega
      have ht2 : t ≤ clv := by
        rw [ht]
        split <;> omega
      have ht3 : offset + t ≤ tv.length := by
        rw [ht]
        split <;> omega
      set chunk := (tv.drop offset).take t with hchunk
      have hchlen : chunk.length = t := by
        rw [hchunk]
        simp only [List.length_take, List.length_drop]
        omega
      set tv' := tv ++ chunk with htv'
      have htvlen : tv'.length = tv.length + t := by
        rw [htv', List.length_append, hchlen]
      have hoff' : offset + t < tv'.length := by omega
      have hcl' : clv - t < fuel := by omega
      obtain ⟨r, hr, hrlen, hrpre, hrpat⟩ := ih tv' (offset + t) (clv - t) hoff' hcl'
      have hstep : copy_target_loop (fuel + 1) tv offset clv
          = copy_target_loop fuel tv' (offset + t) (clv - t) := by
        rw [hclv]
        simp only [copy_target_loop]
      refine ⟨r, by rw [hstep, hr], by omega, ?_, ?_⟩
      · intro i hi
        rw [hrpre i (by omega), htv', List.getElem?_append, if_pos hi]
      · intro i hi
        by_cases hit : i < t
        · have h1 : r[tv.length + i]? = tv'[tv.length + i]? := hrpre _ (by omega)
          have h2 : tv'[tv.length + i]? = chunk[i]? := by
            rw [htv', List.getElem?_append_right (by omega)]
            congr 1
            omega
          have h3 : chunk[i]? = tv[offset + i]? := by
            rw [hchunk, List.getElem?_take_of_lt hit, List.getElem?_drop]
          have h4 : r[offset + i]? = tv'[offset + i]? := hrpre _ (by omega)
          have h5 : tv'[offset + i]? = tv[offset + i]? := by
            rw [htv', List.getElem?_append, if_pos (by omega)]
          rw [h1, h2, h3, h4, h5]
        · have hj : i - t < clv - t := by omega
          have := hrpat (i - t) hj
          have e1 : tv'.length + (i - t) = tv.length + i := by omega
          have e2 : offset + t + (i - t) = offset + i := by omega
          rw [e1, e2] at this
          exact this

/-- Claim C2: the copy-from-target instruction supports self-overlapping
copies.  For every already-produced target view and every in-view offset,
the byte-wise copy loop succeeds, appends exactly `copy_len` bytes,
preserves the existing bytes, and makes every appended byte equal the byte
of the result lying `length of view - offset` earlier — i.e. the output
repeats the pattern starting at `offset`, re-reading just-written bytes
when `copy_len` exceeds the bytes already produced.  Moreover decoding the
version-0 delta "immediate `x`; copy-target offset 0 length 5" against
base `ab` yields `xxxxxx`. -/
theorem copy_target_overlap (tv : Bytes) (offset cl : Nat) (h : offset < tv.length) :
    (∃ r, copy_target_loop (cl + 1) tv offset cl = some r ∧
      r.length = tv.length + cl ∧
      (∀ i, i < tv.length → r[i]? = tv[i]?) ∧
      (∀ i, i < cl → r[tv.length + i]? = r[offset + i]?)) ∧
    apply_delta ([83, 86, 78, 0] ++ [0, 0, 6, 3, 1] ++ [129, 69, 0] ++ [120]) (s2b "ab")
      = .ok (s2b "xxxxxx") :=
  ⟨copy_target_loop_spec (cl + 1) tv offset cl h (Nat.lt_succ_self cl), rfl⟩

/-- Witness for C2: after producing the single byte `x`, a copy-target
instruction with offset 0 and length 5 re-reads just-written bytes. -/
theorem copy_target_overlap_witness :
    (∃ r, copy_target_loop 6 [120] 0 5 = some r ∧
      r.length = 6 ∧
      (∀ i, i < ([120] : Bytes).length → r[i]? = ([120] : Bytes)[i]?) ∧
      (∀ i, i < 5 → r[1 + i]? = r[0 + i]?)) ∧
    apply_delta ([83, 86, 78, 0] ++ [0, 0, 6, 3, 1] ++ [129, 69, 0] ++ [120]) (s2b "ab")
      = .ok (s2b "xxxxxx") :=
  copy_target_overlap [120] 0 5 (by decide)

/-! ## Content-addressed objects (`svn_object`, `svn_blob`, `svn_tree` of
`history_reader.py`) — claims C3, C7 -/

/-- Python's ordering on `(key, value)` tuples of byte strings, as
`props.sort()` uses in `make_svn_hash`. -/
def propLe (x y : Bytes × Bytes) : Bool :=
  if x.1 = y.1 then bytesLe x.2 y.2 else bytesLe x.1 y.1

theorem propLe_trans (a b c : Bytes × Bytes) (h1 : propLe a b = true)
    (h2 : propLe b c = true) : propLe a c = true := by
  unfold propLe at h1 h2 ⊢
  by_cases hab : a.1 = b.1
  · by_cases hbc : b.1 = c.1
    · rw [if_pos hab] at h1
      rw [if_pos hbc] at h2
      rw [if_pos (hab.trans hbc)]
      exact bytesLe_trans h1 h2
    · have hac : ¬ a.1 = c.1 := fun hc => hbc (hab ▸ hc)
      rw [if_neg hbc] at h2
      rw [if_neg hac, hab]
      exact h2
  · by_cases hbc : b.1 = c.1
    · have hac : ¬ a.1 = c.1 := fun hc => hab (hc.trans hbc.symm)
      rw [if_neg hab] at h1
      rw [if_neg hac, ← hbc]
      exact h1
    · rw [if_neg hab] at h1
      rw [if_neg hbc] at h2
      by_cases hac : a.1 = c.1
      · exact absurd (bytesLe_antisymm h1 (hac ▸ h2)) hab
      · rw [if_neg hac]
        exact bytesLe_trans h1 h2

theorem propLe_total (a b : Bytes × Bytes) : propLe a b = true ∨ propLe b a = true := by
  unfold propLe
  by_cases hab : a.1 = b.1
  · rw [if_pos hab, if_pos hab.symm]
    exact bytesLe_total a.2 b.2
  · rw [if_neg hab, if_neg (fun hc => hab hc.symm)]
    exact bytesLe_total a.1 b.1

theorem propLe_antisymm (a b : Bytes × Bytes) (h1 : propLe a b = true)
    (h2 : propLe b a = true) : a = b := by
  unfold propLe at h1 h2
  by_cases hab : a.1 = b.1
  · rw [if_pos hab] at h1
    rw [if_pos hab.symm] at h2
    exact Prod.ext hab (bytesLe_antisymm h1 h2)
  · rw [if_neg hab] at h1
    rw [if_neg (fun hc => hab hc.symm)] at h2
    exact absurd (bytesLe_antisymm h1 h2) hab

/-- An `svn_object`: either an `svn_blob` (file) or an `svn_tree`
(directory).  `svnSha1` is the lazily assigned structural fingerprint;
blob fields mirror the source (`data_len` is the length of `data` and is
not stored separately). -/
inductive ObjB where
  | blob (svnSha1 : Option Bytes) (hidden : Bool) (props : List (Bytes × Bytes))
      (data : Option Bytes) (dataSha1 : Option Bytes)
      (prettyData : Option Bytes) (prettySha1 : Option Bytes) : ObjB
  | tree (svnSha1 : Option Bytes) (hidden : Bool) (props : List (Bytes × Bytes))
      (items : List (Bytes × ObjB)) : ObjB

/-- The fingerprint field. -/
def objSha : ObjB → Option Bytes
  | .blob s _ _ _ _ _ _ => s
  | .tree s _ _ _ => s

/-- `svn_object.get_hash` digest bytes (empty when not finalized). -/
def objHash (o : ObjB) : Bytes := (objSha o).getD []

/-- The `hidden` flag. -/
def objHidden : ObjB → Bool
  | .blob _ h _ _ _ _ _ => h
  | .tree _ h _ _ => h

/-- The property map. -/
def objProps : ObjB → List (Bytes × Bytes)
  | .blob _ _ p _ _ _ _ => p
  | .tree _ _ p _ => p

/-- Blob data (none for trees and for blobs whose data was never set). -/
def objData : ObjB → Option Bytes
  | .blob _ _ _ d _ _ _ => d
  | .tree _ _ _ _ => none

/-- `is_dir`. -/
def objIsDir : ObjB → Bool
  | .tree _ _ _ _ => true
  | .blob _ _ _ _ _ _ _ => false

/-- `is_file`. -/
def objIsFile : ObjB → Bool
  | .blob _ _ _ _ _ _ _ => true
  | .tree _ _ _ _ => false

/-- The byte stream `svn_object.make_svn_hash` hashes: the `hidden ` tag,
the kind prefix, then every property as `PROP: <name> <len>\n<bytes>` in
sorted `(key, value)` order (Python `props.sort()`). -/
def make_svn_hash_input (hidden : Bool) (pre : Bytes) (props : List (Bytes × Bytes)) : Bytes :=
  (if hidden then s2b "hidden " else []) ++ pre ++
    ((isort propLe props).map (fun kv =>
      s2b "PROP: " ++ kv.1 ++ [32] ++ decBytes kv.2.length ++ [10] ++ kv.2)).flatten

/-- The blob hash prefix `BLOB <len>\n<pretty_data_sha1>`. -/
def blobHashPre (prettyData prettySha1 : Option Bytes) : Bytes :=
  s2b "BLOB " ++ decBytes (prettyData.getD []).length ++ [10] ++ prettySha1.getD []

/-- The `ITEM: <name>\n<child fingerprint>` part of a tree's hash stream. -/
def treeItemsPart (items : List (Bytes × ObjB)) : Bytes :=
  (items.map (fun it => s2b "ITEM: " ++ it.1 ++ [10] ++ objHash it.2)).flatten

theorem perm_sizeOf_eq : ∀ {l₁ l₂ : List (Bytes × ObjB)}, l₁.Perm l₂ →
    sizeOf l₁ = sizeOf l₂ := by
  intro l₁ l₂ h
  induction h with
  | nil => rfl
  | cons x _ ih => simp [ih]
  | swap x y l => simp; omega
  | trans _ _ ih₁ ih₂ => exact ih₁.trans ih₂

mutual

/-- `svn_object.finalize` / `svn_tree.finalize`: an already finalized
object is unchanged; otherwise tree items are sorted by name, children are
finalized, and the SHA-1 of the `make_svn_hash` stream is assigned.  The
interning dictionary only ever substitutes an object carrying the same
fingerprint, so it does not affect fingerprints and is not modelled.  The
hash function is an abstract parameter: every equality proved about this
definition holds for the real SHA-1. -/
def finalizeObj (f : Bytes → Bytes) : ObjB → ObjB
  | .blob none hidden props d ds pd ps =>
    .blob (some (f (make_svn_hash_input hidden (blobHashPre pd ps) props)))
      hidden props d ds pd ps
  | .blob (some s) hidden props d ds pd ps => .blob (some s) hidden props d ds pd ps
  | .tree none hidden props items =>
    let its := finalizeItems f (isort (fun a b => bytesLe a.1 b.1) items)
    .tree (some (f (make_svn_hash_input hidden (s2b "TREE" ++ [10]) props ++ treeItemsPart its)))
      hidden props its
  | .tree (some s) hidden props items => .tree (some s) hidden props items
  termination_by o => sizeOf o
  decreasing_by
    have h := perm_sizeOf_eq (isort_perm (fun a b : Bytes × ObjB => bytesLe a.1 b.1) items)
    simp_wf
    omega

/-- `item.object = item.object.finalize(dictionary)` over a tree's item
list. -/
def finalizeItems (f : Bytes → Bytes) : List (Bytes × ObjB) → List (Bytes × ObjB)
  | [] => []
  | (n, o) :: rest => (n, finalizeObj f o) :: finalizeItems f rest
  termination_by l => sizeOf l
  decreasing_by
    all_goals simp_wf
    all_goals omega

end

/-- Claim C3: the structural fingerprint computed by `finalize` is
independent of insertion order — properties are hashed in sorted
`(key, value)` order and tree children are sorted by name before hashing —
so blobs with permuted property maps and trees with permuted property maps
and permuted child lists (child names are unique, as they mirror a Python
dict) receive equal fingerprints. -/
theorem finalize_insertion_order_independent (f : Bytes → Bytes) (hidden : Bool)
    (props1 props2 : List (Bytes × Bytes)) (hp : props1.Perm props2)
    (items1 items2 : List (Bytes × ObjB)) (hi : items1.Perm items2)
    (hnd : (items1.map Prod.fst).Nodup)
    (d ds pd ps : Option Bytes) :
    objSha (finalizeObj f (.blob none hidden props1 d ds pd ps))
      = objSha (finalizeObj f (.blob none hidden props2 d ds pd ps)) ∧
    objSha (finalizeObj f (.tree none hidden props1 items1))
      = objSha (finalizeObj f (.tree none hidden props2 items2)) := by
  have hsort : isort propLe props1 = isort propLe props2 :=
    isort_eq_of_perm propLe_trans propLe_total propLe_antisymm hp
  have hinput : ∀ pre, make_svn_hash_input hidden pre props1
      = make_svn_hash_input hidden pre props2 := by
    intro pre
    unfold make_svn_hash_input
    rw [hsort]
  have hitems : isort (fun a b : Bytes × ObjB => bytesLe a.1 b.1) items1
      = isort (fun a b : Bytes × ObjB => bytesLe a.1 b.1) items2 :=
    isort_eq_of_perm_of_nodup_keys Prod.fst hi hnd
  constructor
  · simp only [finalizeObj, objSha]
    rw [hinput]
  · simp only [finalizeObj, objSha]
    rw [hinput, hitems]

/-- Witness for C3: concrete permuted property maps and child lists. -/
theorem finalize_insertion_order_independent_witness :
    ([(s2b "a", s2b "1"), (s2b "b", s2b "2")] : List (Bytes × Bytes)).Perm
        [(s2b "b", s2b "2"), (s2b "a", s2b "1")] ∧
    (([(s2b "x", ObjB.blob none false [] none none none none),
       (s2b "y", ObjB.tree none false [] [])] : List (Bytes × ObjB)).map Prod.fst).Nodup ∧
    objSha (finalizeObj id (.blob none false [(s2b "a", s2b "1"), (s2b "b", s2b "2")]
        none none none none))
      = objSha (finalizeObj id (.blob none false [(s2b "b", s2b "2"), (s2b "a", s2b "1")]
        none none none none)) ∧
    objSha (finalizeObj id (.tree none false [(s2b "a", s2b "1"), (s2b "b", s2b "2")]
        [(s2b "x", ObjB.blob none false [] none none none none),
         (s2b "y", ObjB.tree none false [] [])]))
      = objSha (finalizeObj id (.tree none false [(s2b "b", s2b "2"), (s2b "a", s2b "1")]
        [(s2b "y", ObjB.tree none false [] []),
         (s2b "x", ObjB.blob none false [] none none none none)])) := by
  have hperm : ([(s2b "a", s2b "1"), (s2b "b", s2b "2")] : List (Bytes × Bytes)).Perm
      [(s2b "b", s2b "2"), (s2b "a", s2b "1")] := List.Perm.swap _ _ _
  have hiperm : ([(s2b "x", ObjB.blob none false [] none none none none),
      (s2b "y", ObjB.tree none false [] [])] : List (Bytes × ObjB)).Perm
      [(s2b "y", ObjB.tree none false [] []),
       (s2b "x", ObjB.blob none false [] none none none none)] := List.Perm.swap _ _ _
  have hnd : (([(s2b "x", ObjB.blob none false [] none none none none),
      (s2b "y", ObjB.tree none false [] [])] : List (Bytes × ObjB)).map Prod.fst).Nodup := by
    simp only [List.map_cons, List.map_nil]
    refine List.nodup_cons.mpr ⟨?_, List.nodup_singleton _⟩
    simp only [List.mem_singleton]
    decide
  have h := finalize_insertion_order_independent id false
    [(s2b "a", s2b "1"), (s2b "b", s2b "2")] [(s2b "b", s2b "2"), (s2b "a", s2b "1")] hperm
    _ _ hiperm hnd none none none none
  exact ⟨hperm, hnd, h.1, h.2⟩

/-! ### The revision tree builder (`history_reader.apply_file_node`) — claim C7 -/

mutual

/-- `svn_object.hide` / `svn_tree.hide`: unchanged when the flag already
matches, otherwise a copy (fingerprint reset) with the flag set, applied
recursively to tree items. -/
def hideObj (b : Bool) : ObjB → ObjB
  | .blob sha h p d ds pd ps =>
    if h = b then .blob sha h p d ds pd ps else .blob none b p d ds pd ps
  | .tree sha h p items =>
    if h = b then .tree sha h p items else .tree none b p (hideItems b items)

/-- `item.object = item.object.hide(hide)` over a tree's item list. -/
def hideItems (b : Bool) : List (Bytes × ObjB) → List (Bytes × ObjB)
  | [] => []
  | (n, o) :: rest => (n, hideObj b o) :: hideItems b rest

end

/-- `make_unshared`: clone (fingerprint reset) only when finalized. -/
def make_unshared : ObjB → ObjB
  | .blob none h p d ds pd ps => .blob none h p d ds pd ps
  | .blob (some _) h p d ds pd ps => .blob none h p d ds pd ps
  | .tree none h p items => .tree none h p items
  | .tree (some _) h p items => .tree none h p items

/-- `type(self)()`: a fresh empty tree. -/
def emptyTree : ObjB := .tree none false [] []

/-- Truthiness of `path.partition('/')[2]` when the path is represented by
its segments: the joined remainder of the segments is a non-empty
string. -/
def segsTruthy : List Bytes → Bool
  | [] => false
  | [s] => decide (s ≠ [])
  | _ :: _ :: _ => true

/-- `svn_tree.find_path`: walk the segments of a path (empty segments are
skipped; descending into a non-directory fails). -/
def find_path : ObjB → List Bytes → Option ObjB
  | t, [] => some t
  | .blob _ _ _ _ _ _ _, _ :: _ => none
  | .tree sha h p items, seg :: rest =>
    if seg = [] then find_path (.tree sha h p items) rest
    else
      match dictGet items seg with
      | none => none
      | some o => find_path o rest
  termination_by _ segs => segs.length

/-- The common tail of `svn_tree.set`: the unchanged-fingerprint
short-circuit, `make_unshared`, removal of the old item, hiding an object
placed into a hidden directory, and the append of the new item. -/
def setLeaf (sha : Option Bytes) (hid : Bool) (props : List (Bytes × Bytes))
    (items : List (Bytes × ObjB)) (name : Bytes) (obj : ObjB) : ObjB :=
  match dictGet items name with
  | some o =>
    if objSha o ≠ none ∧ objSha o = objSha obj then .tree sha hid props items
    else
      let obj2 := if hid ∧ ¬ objHidden obj then hideObj true obj else obj
      .tree none hid props (dictPop items name ++ [(name, obj2)])
  | none =>
    let obj2 := if hid ∧ ¬ objHidden obj then hideObj true obj else obj
    .tree none hid props (items ++ [(name, obj2)])

/-- `svn_tree.set(path, obj)` (without keyword arguments), over path
segments: recurse along the first segment, creating intermediate trees
when the segment is missing or not a directory.  `set` is only invoked on
trees; on a blob it is the identity (unreachable). -/
def setPath : ObjB → List Bytes → ObjB → ObjB
  | .blob sha h p d ds pd ps, _, _ => .blob sha h p d ds pd ps
  | .tree sha hid props items, [], obj0 => setLeaf sha hid props items [] obj0
  | .tree sha hid props items, name :: rest, obj0 =>
    let obj :=
      if segsTruthy rest then
        setPath
          (match dictGet items name with
            | some o => if objIsDir o then o else emptyTree
            | none => emptyTree) rest obj0
      else obj0
    setLeaf sha hid props items name obj
  termination_by _ segs _ => segs.length

/-- `svn_tree.delete(path)`: remove the item at the path, returning `none`
when the path is absent (the modified trees are `make_unshared`, i.e. the
fingerprint is reset). -/
def treeDelete : ObjB → List Bytes → Option ObjB
  | .blob _ _ _ _ _ _ _, _ => none
  | .tree _ hid props items, [] =>
    (match dictGet items [] with
      | none => none
      | some _ => some (.tree none hid props (dictPop items [])))
  | .tree _ hid props items, name :: rest =>
    match dictGet items name with
    | none => none
    | some o =>
      if ¬ segsTruthy rest then some (.tree none hid props (dictPop items name))
      else if ¬ objIsDir o then none
      else
        match treeDelete o rest with
        | none => none
        | some sub => some (.tree none hid props (dictPop items name ++ [(name, sub)]))
  termination_by _ segs => segs.length

/-- The builder state `apply_file_node` consults: the table of loaded
revisions (`self.revisions`, indexed by revision number; `None` marks a
gap) holding each revision's tree, and the hash-verification switch. -/
structure HistState where
  revisions : List (Option ObjB)
  verify_data_hash : Bool

/-- `history_reader.get_revision`. -/
def get_revision (st : HistState) (rev : Nat) : Except HistoryParseErr ObjB :=
  if st.revisions.length ≤ rev then .error .copyRevOutOfRange
  else
    match st.revisions[rev]? with
    | some (some r) => .ok r
    | _ => .error .copyRevNotFound

/-- The node fields `apply_file_node` reads, with paths pre-split into
segments. -/
structure FileNode where
  path : List Bytes
  action : Bytes
  copyfrom_path : Option (List Bytes) := none
  copyfrom_rev : Nat := 0
  text_is_delta : Bool := false
  props_is_delta : Bool := false
  text_content : Option Bytes := none
  text_content_sha1 : Option Bytes := none
  text_delta_base_sha1 : Option Bytes := none
  props : Option (List (Bytes × Option Bytes)) := none

/-- `history_reader.make_blob`: build a fresh blob for the data, taking the
advertised content SHA-1 when given or computing it, finalize it, and
verify the advertised hash when verification is on (the source defers
verification of large blobs to a worker future raised at the next
`is_finalized`; it is modelled synchronously). -/
def make_blob (f : Bytes → Bytes) (verify : Bool) (data : Bytes) (node : FileNode)
    (properties : Option (List (Bytes × Bytes))) : Except HistoryParseErr ObjB :=
  let data_sha1 :=
    match node.text_content_sha1 with
    | some h => h
    | none => f data
  let obj := finalizeObj f
    (.blob none false (properties.getD []) (some data) (some data_sha1)
      (some data) (some data_sha1))
  if node.text_content_sha1.isSome ∧ verify then
    if f data ≠ node.text_content_sha1.getD [] then .error .hashMismatch else .ok obj
  else .ok obj

/-- `history_reader.copy_blob`: clone a source blob with new properties
(`svn_blob.__init__` with `src`: data kept, pretty data reset to the raw
data, fingerprint reset) and finalize it. -/
def copy_blob (f : Bytes → Bytes) (src : ObjB)
    (properties : Option (List (Bytes × Bytes))) : ObjB :=
  match src with
  | .blob _ hid sprops d ds _ _ =>
    finalizeObj f (.blob none hid ((properties.map (fun p => p)).getD sprops) d ds d ds)
  | t => t

/-- The text step of `apply_file_node`: apply the delta against the source
blob's data (empty when there is no source blob) or take the literal
payload.  A delta node without text content would crash Python
(`io.BytesIO(None)`); that state is an error here. -/
def afnText (node : FileNode) (source_file : Option ObjB) :
    Except HistoryParseErr (Option Bytes) :=
  if node.text_is_delta then
    let delta_base :=
      match source_file with
      | some sf => (objData sf).getD []
      | none => []
    match node.text_content with
    | none => .error .missingDeltaSource
    | some tc =>
      match apply_delta tc delta_base with
      | .error _ => .error .deltaFailed
      | .ok t => .ok (some t)
  else .ok node.text_content

/-- The copy-source step of `apply_file_node`: resolve
`node.copyfrom_path`/`copyfrom_rev` to a file blob, un-hide it and take
its properties as the delta base. -/
def afnCopySource (st : HistState) (node : FileNode)
    (source_file0 : Option ObjB) (dbp0 : Option (List (Bytes × Bytes))) :
    Except HistoryParseErr (Option ObjB × Option (List (Bytes × Bytes))) :=
  match node.copyfrom_path with
  | none => .ok (source_file0, dbp0)
  | some cp =>
    match get_revision st node.copyfrom_rev with
    | .error e => .error e
    | .ok rtree =>
      match find_path rtree cp with
      | none => .error .copySourceNotFound
      | some sf =>
        if ¬ objIsFile sf then .error .copySourceNotAFile
        else .ok (some (hideObj false sf), some (objProps sf))

/-- The property step of `apply_file_node`: a delta block edits the delta
base, a literal block replaces, no block keeps the chosen properties. -/
def afnProps (node : FileNode)
    (npdb : Option (List (Bytes × Bytes)) × Option (List (Bytes × Bytes))) :
    Except HistoryParseErr (Option (List (Bytes × Bytes))) :=
  if node.props_is_delta then
    match node.props with
    | none => .error .missingDeltaSource
    | some delta => (apply_delta_to_properties npdb.2 delta).map some
  else
    match node.props with
    | none => .ok npdb.1
    | some ps =>
      match stripOpt ps with
      | some p => .ok (some p)
      | none => .error .nonDeltaDelete

/-- The blob step of `apply_file_node`: fresh text makes a new blob;
otherwise the source blob (or the current one) is kept, cloned when new
properties apply; the finalized blob is set into the tree. -/
def afnStore (f : Bytes → Bytes) (st : HistState) (node : FileNode) (base_tree : ObjB)
    (file_blob source_file : Option ObjB) (text_content : Option Bytes)
    (new_properties : Option (List (Bytes × Bytes))) : Except HistoryParseErr ObjB :=
  match text_content with
  | some data =>
    match make_blob f st.verify_data_hash data node new_properties with
    | .error e => .error e
    | .ok blob => .ok (setPath base_tree node.path (finalizeObj f blob))
  | none =>
    match (match source_file with
      | some sf => some sf
      | none => file_blob) with
    | none => .error .nonExistentPath
    | some fb3 =>
      let fb4 :=
        match new_properties with
        | some np => copy_blob f fb3 (some np)
        | none => fb3
      .ok (setPath base_tree node.path (finalizeObj f fb4))

/-- `apply_file_node` after the target-existence checks and the
delete/hide actions: resolve the copy source, build the text content,
choose the property sets, build or copy the blob and set it into the
tree.  A non-delta property block containing a delete entry would store
Python `None` into the blob's property map and crash at fingerprint time;
here it is an immediate error (unreachable for well-formed blocks). -/
def apply_file_node_rest (f : Bytes → Bytes) (st : HistState) (node : FileNode)
    (base_tree : ObjB) (file_blob source_file0 : Option ObjB)
    (delta_base_properties0 : Option (List (Bytes × Bytes))) :
    Except HistoryParseErr ObjB :=
  match afnCopySource st node source_file0 delta_base_properties0 with
  | .error e => .error e
  | .ok (source_file, delta_base_properties1) =>
    match afnText node source_file with
    | .error e => .error e
    | .ok text_content =>
      let npdb : Option (List (Bytes × Bytes)) × Option (List (Bytes × Bytes)) :=
        if node.action = s2b "change" then
          -- 'change' preserves the original file instead of copying
          -- properties from the source
          (file_blob.map objProps, file_blob.map objProps)
        else if text_content.isSome ∧ source_file.isSome then
          (source_file.map objProps, source_file.map objProps)
        else (none, delta_base_properties1)
      match afnProps node npdb with
      | .error e => .error e
      | .ok new_properties =>
        afnStore f st node base_tree file_blob source_file text_content new_properties

/-- `history_reader.apply_file_node(node, base_tree)`. -/
def apply_file_node (f : Bytes → Bytes) (st : HistState) (node : FileNode)
    (base_tree : ObjB) : Except HistoryParseErr ObjB :=
  let file_blob := find_path base_tree node.path
  if node.action ≠ s2b "add" then
    match file_blob with
    | none => .error .nonExistentPath
    | some fb =>
      if ¬ objIsFile fb then .error .notAFile
      else if node.action = s2b "delete" then
        match treeDelete base_tree node.path with
        | some t => .ok t
        | none => .error .nonExistentPath
      else if node.action = s2b "hide" then
        .ok (setPath base_tree node.path (hideObj true fb))
      else apply_file_node_rest f st node base_tree file_blob file_blob (some (objProps fb))
  else
    match file_blob with
    | some fb =>
      if ¬ objHidden fb then .error .alreadyExists
      else apply_file_node_rest f st node base_tree file_blob file_blob none
    | none => apply_file_node_rest f st node base_tree none none none

theorem apply_file_node_rest_ok (f : Bytes → Bytes) (st : HistState) (node : FileNode)
    (base_tree : ObjB) (file_blob source_file0 : Option ObjB)
    (dbp0 : Option (List (Bytes × Bytes))) (data : Bytes)
    (htd : node.text_is_delta = false)
    (htc : node.text_content = some data)
    (hpd : node.props_is_delta = false)
    (hpn : node.props = none)
    (hvf : st.verify_data_hash = false)
    (hcf : node.copyfrom_path = none ∨
      (∃ cp rt sf, node.copyfrom_path = some cp ∧
        get_revision st node.copyfrom_rev = .ok rt ∧
        find_path rt cp = some sf ∧ objIsFile sf = true)) :
    ∃ t, apply_file_node_rest f st node base_tree file_blob source_file0 dbp0 = .ok t := by
  have hcopy : ∃ sf1 dbp1, afnCopySource st node source_file0 dbp0 = .ok (sf1, dbp1) := by
    rcases hcf with hn | ⟨cp, rt, sf, hcp, hrt, hsf, hisf⟩
    · exact ⟨source_file0, dbp0, by simp [afnCopySource, hn]⟩
    · exact ⟨some (hideObj false sf), some (objProps sf),
        by simp [afnCopySource, hcp, hrt, hsf, hisf]⟩
  obtain ⟨sf1, dbp1, hcopy⟩ := hcopy
  have htext : afnText node sf1 = .ok (some data) := by
    simp [afnText, htd, htc]
  have hmb : ∀ np : Option (List (Bytes × Bytes)),
      make_blob f st.verify_data_hash data node np
        = .ok (finalizeObj f (.blob none false (np.getD [])
            (some data)
            (some (match node.text_content_sha1 with | some h => h | none => f data))
            (some data)
            (some (match node.text_content_sha1 with | some h => h | none => f data)))) := by
    intro np
    simp only [make_blob, hvf]
    rw [if_neg (by simp)]
  have hprops : ∀ npdb, afnProps node npdb = .ok npdb.1 := by
    intro npdb
    simp [afnProps, hpd, hpn]
  simp only [apply_file_node_rest, hcopy, htext]
  rw [hprops]
  simp only [afnStore]
  rw [hmb]
  exact ⟨_, rfl⟩

/-- Claim C7: for a file `add` node, a target path already holding a
non-hidden object makes the application fail with a history-parse error;
when the target is absent or currently hidden — and the node is otherwise
well-formed: a literal text payload, a literal or absent property block,
hash verification off, and a copy source that resolves to a file when
present — the add succeeds (the copy source, when given, seeding the new
blob's properties). -/
theorem file_add_target_check (f : Bytes → Bytes) (st : HistState) (node : FileNode)
    (base_tree : ObjB) (data : Bytes) (hadd : node.action = s2b "add") :
    (∀ fb, find_path base_tree node.path = some fb → objHidden fb = false →
      apply_file_node f st node base_tree = .error .alreadyExists) ∧
    ((find_path base_tree node.path = none ∨
        (∃ fb, find_path base_tree node.path = some fb ∧ objHidden fb = true)) →
      node.text_is_delta = false →
      node.text_content = some data →
      node.props_is_delta = false →
      node.props = none →
      st.verify_data_hash = false →
      (node.copyfrom_path = none ∨
        (∃ cp rt sf, node.copyfrom_path = some cp ∧
          get_revision st node.copyfrom_rev = .ok rt ∧
          find_path rt cp = some sf ∧ objIsFile sf = true)) →
      ∃ t, apply_file_node f st node base_tree = .ok t) := by
  constructor
  · intro fb hf hh
    simp [apply_file_node, hadd, hf, hh]
  · intro hclear htd htc hpd hpn hvf hcf
    rcases hclear with hn | ⟨fb, hf, hh⟩
    · have := apply_file_node_rest_ok f st node base_tree none none none data
        htd htc hpd hpn hvf hcf
      simpa [apply_file_node, hadd, hn] using this
    · have := apply_file_node_rest_ok f st node base_tree (some fb) (some fb) none data
        htd htc hpd hpn hvf hcf
      simpa [apply_file_node, hadd, hf, hh] using this

/-- Witness for C7: adding `f.txt` over a tree already holding it
non-hidden fails; adding it to an empty tree succeeds. -/
theorem file_add_target_check_witness :
    (apply_file_node id ⟨[], false⟩
        ⟨[s2b "f.txt"], s2b "add", none, 0, false, false, some (s2b "hi"),
          none, none, none⟩
        (.tree none false [] [(s2b "f.txt", .blob none false [] none none none none)])
      = .error .alreadyExists) ∧
    (∃ t, apply_file_node id ⟨[], false⟩
        ⟨[s2b "f.txt"], s2b "add", none, 0, false, false, some (s2b "hi"),
          none, none, none⟩
        (.tree none false [] []) = .ok t) := by
  constructor
  · exact (file_add_target_check id ⟨[], false⟩ _ _ (s2b "hi") rfl).1
      (.blob none false [] none none none none) (by simp [find_path, dictGet]; decide) rfl
  · exact (file_add_target_check id ⟨[], false⟩ _ _ (s2b "hi") rfl).2
      (Or.inl (by simp [find_path, dictGet]; decide)) rfl rfl rfl rfl rfl (Or.inl rfl)

/-! ## Mergeinfo (`mergeinfo.py`) — claim C4

`mergeinfo.py` imports the range algebra from `rev_ranges.py`, which is not
among the sources; `containsRev`, `subtract_ranges` and `combine_ranges`
are therefore modelled from the specification (section 4.6). -/

/-- Modelled from the spec: `rev_ranges.py` is missing from the sources.
A rev-range set is a list of closed `[lo, hi]` intervals (spec 4.6);
`containsRev` is its `contains(r, n)` membership test. -/
def containsRev (ranges : List (Nat × Nat)) (n : Nat) : Bool :=
  ranges.any (fun r => r.1 ≤ n && n ≤ r.2)

/-- Modelled from the spec: the part of the closed interval `r` not covered
by the closed interval `s`. -/
def subInterval (r s : Nat × Nat) : List (Nat × Nat) :=
  (if r.1 < s.1 then [(r.1, min r.2 (s.1 - 1))] else []) ++
    (if s.2 < r.2 then [(max r.1 (s.2 + 1), r.2)] else [])

/-- Modelled from the spec: `subtract_ranges(a, b)` (`subtract(a, b)` of
spec 4.6) removes every interval of `b` from every interval of `a`. -/
def subtract_ranges (a b : List (Nat × Nat)) : List (Nat × Nat) :=
  b.foldl (fun acc s => (acc.map (fun r => subInterval r s)).flatten) a

/-- Modelled from the spec: merge sorted overlapping or adjacent intervals
(spec 4.6: "adjacent/overlapping intervals merged"). -/
def mergeAdjacent : List (Nat × Nat) → List (Nat × Nat)
  | [] => []
  | [r] => [r]
  | r :: s :: rest =>
    if s.1 ≤ r.2 + 1 then mergeAdjacent ((r.1, max r.2 s.2) :: rest)
    else r :: mergeAdjacent (s :: rest)
  termination_by l => l.length

/-- Modelled from the spec: `combine_ranges(a, b)` is the union
(`combine(a, b)` of spec 4.6): concatenate, sort by lower bound and merge
adjacent or overlapping intervals. -/
def combine_ranges (a b : List (Nat × Nat)) : List (Nat × Nat) :=
  mergeAdjacent (isort (fun r s : Nat × Nat => decide (r.1 ≤ s.1)) (a ++ b))

theorem mem_subInterval (r s : Nat × Nat) (n : Nat) :
    containsRev (subInterval r s) n = true ↔
      ((r.1 ≤ n ∧ n ≤ r.2) ∧ ¬(s.1 ≤ n ∧ n ≤ s.2)) := by
  unfold containsRev subInterval
  by_cases h1 : r.1 < s.1 <;> by_cases h2 : s.2 < r.2 <;>
    simp only [h1, h2, if_true, if_false, List.any_append, List.any_cons, List.any_nil,
      Bool.or_eq_true, Bool.and_eq_true, decide_eq_true_eq, Bool.or_false, Bool.false_or,
      Bool.false_eq_true, false_iff, false_or, or_false] <;>
    omega

theorem containsRev_subInterval (r s : Nat × Nat) (n : Nat) :
    containsRev (subInterval r s) n
      = ((r.1 ≤ n && n ≤ r.2) && !(s.1 ≤ n && n ≤ s.2)) := by
  rw [Bool.eq_iff_iff, mem_subInterval]
  simp only [Bool.and_eq_true, Bool.not_eq_true', Bool.and_eq_false_iff,
    decide_eq_true_eq, decide_eq_false_iff_not]
  omega

theorem containsRev_subtract (a b : List (Nat × Nat)) (n : Nat) :
    containsRev (subtract_ranges a b) n = (containsRev a n && !containsRev b n) := by
  unfold subtract_ranges
  induction b generalizing a with
  | nil => simp [containsRev]
  | cons s bs ih =>
    rw [List.foldl_cons, ih]
    have hstep : containsRev ((a.map (fun r => subInterval r s)).flatten) n
        = (containsRev a n && !(s.1 ≤ n && n ≤ s.2)) := by
      induction a with
      | nil => simp [containsRev]
      | cons r as iha =>
        simp only [List.map_cons, List.flatten_cons]
        rw [show containsRev (subInterval r s ++ (as.map (fun r => subInterval r s)).flatten) n
            = (containsRev (subInterval r s) n
                || containsRev ((as.map (fun r => subInterval r s)).flatten) n) from by
          simp [containsRev, List.any_append]]
        rw [containsRev_subInterval, iha]
        rw [show containsRev (r :: as) n = ((r.1 ≤ n && n ≤ r.2) || containsRev as n) from by
          simp [containsRev]]
        cases (r.1 ≤ n && n ≤ r.2) <;> cases containsRev as n <;>
          cases (s.1 ≤ n && n ≤ s.2) <;> rfl
    rw [hstep]
    rw [show containsRev (s :: bs) n = ((s.1 ≤ n && n ≤ s.2) || containsRev bs n) from by
      simp [containsRev]]
    cases containsRev a n <;> cases (s.1 ≤ n && n ≤ s.2) <;> cases containsRev bs n <;> rfl

/-- Non-slash code point test (`/` is 47). -/
def isNotSlash (c : Nat) : Bool := c != 47

/-- `parent_path.rpartition('/')[0]`: everything before the last slash,
empty when there is none (paths are strings, i.e. code-point lists). -/
def parentOf (p : Bytes) : Bytes :=
  ((p.reverse.dropWhile isNotSlash).drop 1).reverse

theorem parentOf_length_lt {p : Bytes} (h : p ≠ []) : (parentOf p).length < p.length := by
  unfold parentOf
  have h1 : (p.reverse.dropWhile isNotSlash).length ≤ p.reverse.length :=
    (List.dropWhile_sublist _).length_le
  simp only [List.length_reverse] at h1
  simp only [List.length_reverse, List.length_drop]
  have h2 : 0 < p.length := List.length_pos.mpr h
  omega

theorem parentOf_prefix (p : Bytes) : ∃ suf, p = parentOf p ++ suf := by
  unfold parentOf
  have hsplit : p.reverse.takeWhile isNotSlash ++ p.reverse.dropWhile isNotSlash
      = p.reverse := List.takeWhile_append_dropWhile _ _
  rcases hd : p.reverse.dropWhile isNotSlash with _ | ⟨c, t⟩
  · exact ⟨p, by simp⟩
  · refine ⟨c :: (p.reverse.takeWhile isNotSlash).reverse, ?_⟩
    have hp : p = (p.reverse.takeWhile isNotSlash ++ c :: t).reverse := by
      rw [hd] at hsplit
      rw [hsplit, List.reverse_reverse]
    conv_lhs => rw [hp]
    simp

/-- The sequence of dictionary keys the parent-walk loops of
`mergeinfo.normalize` look up for a path: each `rpartition` parent, with
the empty parent represented by the root key `/` (fuelled; the parent is
strictly shorter, so `length + 1` fuel suffices). -/
def chainKeysAux : Nat → Bytes → List Bytes
  | 0, _ => []
  | fuel + 1, p =>
    if p = [] then []
    else
      (if parentOf p = [] then [47] else parentOf p) :: chainKeysAux fuel (parentOf p)

/-- The parent-chain keys of a path. -/
def chainKeys (p : Bytes) : List Bytes := chainKeysAux (p.length + 1) p

theorem bytesLe_append (a suf : Bytes) : bytesLe a (a ++ suf) = true := by
  induction a with
  | nil => rfl
  | cons x xs ih => simp [bytesLe, ih]

theorem chainKeysAux_le : ∀ (fuel : Nat) (q p : Bytes), (∃ suf, p = q ++ suf) →
    p.head? = some 47 → ∀ a ∈ chainKeysAux fuel q, bytesLe a p = true := by
  intro fuel
  induction fuel with
  | zero => intro q p _ _ a ha; cases ha
  | succ fuel ih =>
    intro q p hpre hhead a ha
    by_cases hq : q = []
    · simp only [chainKeysAux, if_pos hq] at ha
      cases ha
    · simp only [chainKeysAux, if_neg hq] at ha
      have hqpre : ∃ suf, p = parentOf q ++ suf := by
        obtain ⟨s1, hs1⟩ := parentOf_prefix q
        obtain ⟨s2, hs2⟩ := hpre
        refine ⟨s1 ++ s2, ?_⟩
        rw [hs2]
        rw [show q ++ s2 = (parentOf q ++ s1) ++ s2 from congrArg (· ++ s2) hs1]
        rw [List.append_assoc]
      rcases List.mem_cons.mp ha with ha | ha
      · subst ha
        by_cases hpq : parentOf q = []
        · rw [if_pos hpq]
          rcases p with _ | ⟨c, t⟩
          · cases hhead
          · have hc : c = 47 := by
              simp only [List.head?, Option.some.injEq] at hhead
              exact hhead
            subst hc
            simp [bytesLe, bytesLe_refl]
        · rw [if_neg hpq]
          obtain ⟨suf, hsuf⟩ := hqpre
          rw [hsuf]
          exact bytesLe_append _ _
      · exact ih (parentOf q) p hqpre hhead a ha

theorem chainKeys_le {a p : Bytes} (ha : a ∈ chainKeys p) (hhead : p.head? = some 47) :
    bytesLe a p = true :=
  chainKeysAux_le (p.length + 1) p p ⟨[], by simp⟩ hhead a ha

/-- The ranges of an interval list flattened for Python's tuple-list
comparison (pairs have fixed length, so tuple-lexicographic order on the
list equals byte-lexicographic order on the flattening). -/
def rangesFlat (r : List (Nat × Nat)) : Bytes :=
  (r.map (fun x => [x.1, x.2])).flatten

/-- Python's ordering on the `(path, ranges)` tuples that
`mergeinfo.normalize` sorts. -/
def mergeinfoLe (a b : Bytes × List (Nat × Nat)) : Bool :=
  propLe (a.1, rangesFlat a.2) (b.1, rangesFlat b.2)

theorem mergeinfoLe_trans (a b c : Bytes × List (Nat × Nat))
    (h1 : mergeinfoLe a b = true) (h2 : mergeinfoLe b c = true) :
    mergeinfoLe a c = true := propLe_trans _ _ _ h1 h2

theorem mergeinfoLe_total (a b : Bytes × List (Nat × Nat)) :
    mergeinfoLe a b = true ∨ mergeinfoLe b a = true := propLe_total _ _

/-- The parent-walk of `mergeinfo.normalize` for one entry: subtract the
ranges of every (non-empty) ancestor entry present in the dictionary,
stopping as soon as nothing is left. -/
def subtractChain (dict : List (Bytes × List (Nat × Nat))) :
    List Bytes → List (Nat × Nat) → List (Nat × Nat)
  | [], ranges => ranges
  | k :: ks, ranges =>
    match dictGet dict k with
    | some prev =>
      if prev ≠ [] then
        let r2 := subtract_ranges ranges prev
        if r2 = [] then [] else subtractChain dict ks r2
      else subtractChain dict ks ranges
    | none => subtractChain dict ks ranges

/-- The insertion loop of `mergeinfo.normalize` over the sorted entries. -/
def normGo : List (Bytes × List (Nat × Nat)) → List (Bytes × List (Nat × Nat)) →
    List (Bytes × List (Nat × Nat))
  | dict, [] => dict
  | dict, (p, r) :: rest =>
    let r2 := subtractChain dict (chainKeys p) r
    normGo (if r2 = [] then dict else dictSet dict p r2) rest

/-- `mergeinfo.normalize`: sort the entries (Python tuple comparison),
clear the dictionary, and re-insert each entry after subtracting every
ancestor entry already present; entries whose ranges become empty are
dropped. -/
def mi_normalize (d : List (Bytes × List (Nat × Nat))) : List (Bytes × List (Nat × Nat)) :=
  normGo [] (isort mergeinfoLe d)

/-- The inner loop of `mergeinfo.get_diff` for one entry: walk from the
path itself up the `rpartition` parent chain (the empty parent looked up
as `/`), subtracting the previous mergeinfo's ranges; ranges equal to the
previous entry's cancel the entry entirely.  Fuelled; the parent is
strictly shorter at every step, so `length + 1` fuel suffices. -/
def diffLoopAux (prev : List (Bytes × List (Nat × Nat))) :
    Nat → Bytes → List (Nat × Nat) → List (Nat × Nat)
  | 0, _, _ => []
  | fuel + 1, parent_path, ranges =>
    if ranges = [] then []
    else
      match dictGet prev (if parent_path = [] then [47] else parent_path) with
      | some pr =>
        if pr ≠ [] then
          if pr = ranges then []
          else
            let r2 := subtract_ranges ranges pr
            if parent_path = [] then r2
            else diffLoopAux prev fuel (parentOf parent_path) r2
        else if parent_path = [] then ranges
        else diffLoopAux prev fuel (parentOf parent_path) ranges
      | none =>
        if parent_path = [] then ranges
        else diffLoopAux prev fuel (parentOf parent_path) ranges

/-- The entry loop of `mergeinfo.get_diff` over the entries of `self`. -/
def diffGo (prev : List (Bytes × List (Nat × Nat))) :
    List (Bytes × List (Nat × Nat)) → List (Bytes × List (Nat × Nat)) →
    List (Bytes × List (Nat × Nat))
  | acc, [] => acc
  | acc, (p, r) :: rest =>
    let r2 := diffLoopAux prev (p.length + 1) p r
    diffGo prev (if r2 ≠ [] then dictSet acc p r2 else acc) rest

/-- `mergeinfo.get_diff(prev_mergeinfo)`: the entries of `self` whose
ranges survive the parent-chain subtraction against `prev`. -/
def mi_get_diff (self prev : List (Bytes × List (Nat × Nat))) :
    List (Bytes × List (Nat × Nat)) :=
  diffGo prev [] self

/-- The path loop of `mergeinfo.add_mergeinfo` over the entries being
added. -/
def addGo : List (Bytes × List (Nat × Nat)) → List (Bytes × List (Nat × Nat)) →
    List (Bytes × List (Nat × Nat))
  | acc, [] => acc
  | acc, (p, r) :: rest =>
    match dictGet acc p with
    | none => addGo (dictSet acc p r) rest
    | some prev =>
      let nr := combine_ranges prev r
      addGo (if nr ≠ prev then dictSet acc p nr else acc) rest

/-- `mergeinfo.add_mergeinfo`: merge another mergeinfo dictionary into
this one path by path, combining ranges for paths already present. -/
def mi_add_mergeinfo (self addDict : List (Bytes × List (Nat × Nat))) :
    List (Bytes × List (Nat × Nat)) :=
  addGo self addDict

/-- The loop of `tree_mergeinfo.build_mergeinfo` over the per-subpath
mergeinfo dictionaries of the tree-mergeinfo. -/
def buildGo : List (Bytes × List (Nat × Nat)) →
    List (Bytes × List (Bytes × List (Nat × Nat))) → List (Bytes × List (Nat × Nat))
  | acc, [] => acc
  | acc, (_, m) :: rest => buildGo (mi_add_mergeinfo acc m) rest

/-- `tree_mergeinfo.build_mergeinfo` (without the optional normalize): fold
every per-subpath mergeinfo of the tree-mergeinfo into a fresh
mergeinfo. -/
def build_mergeinfo (t : List (Bytes × List (Bytes × List (Nat × Nat)))) :
    List (Bytes × List (Nat × Nat)) :=
  buildGo [] t

theorem bytesLt_irrefl (a : Bytes) : bytesLt a a = false := by
  cases h : bytesLt a a
  · rfl
  · exact absurd (bytesLt_iff.mp h).2 (by simp)

theorem dictGet_none_of_forall_ne [DecidableEq κ] {d : List (κ × ν)} {k : κ}
    (h : ∀ x ∈ d, x.1 ≠ k) : dictGet d k = none := by
  induction d with
  | nil => rfl
  | cons e rest ih =>
    have he : e.1 ≠ k := h e (List.mem_cons_self _ _)
    obtain ⟨k₀, v₀⟩ := e
    simp only [dictGet, if_neg he]
    exact ih (fun x hx => h x (List.mem_cons_of_mem _ hx))

theorem subtractChain_cons_none {dict : List (Bytes × List (Nat × Nat))} {k : Bytes}
    (ks : List Bytes) (r : List (Nat × Nat)) (h : dictGet dict k = none) :
    subtractChain dict (k :: ks) r = subtractChain dict ks r := by
  simp [subtractChain, h]

theorem subtractChain_cons_some_nil {dict : List (Bytes × List (Nat × Nat))} {k : Bytes}
    (ks : List Bytes) (r : List (Nat × Nat)) (h : dictGet dict k = some []) :
    subtractChain dict (k :: ks) r = subtractChain dict ks r := by
  simp [subtractChain, h]

theorem subtractChain_cons_some {dict : List (Bytes × List (Nat × Nat))} {k : Bytes}
    {pr : List (Nat × Nat)} (ks : List Bytes) (r : List (Nat × Nat))
    (h : dictGet dict k = some pr) (hpr : pr ≠ []) :
    subtractChain dict (k :: ks) r
      = (if subtract_ranges r pr = [] then []
        else subtractChain dict ks (subtract_ranges r pr)) := by
  simp [subtractChain, h, hpr]

theorem subtractChain_mono (dict : List (Bytes × List (Nat × Nat))) :
    ∀ (ks : List Bytes) (r : List (Nat × Nat)) (n : Nat),
    containsRev (subtractChain dict ks r) n = true → containsRev r n = true := by
  intro ks
  induction ks with
  | nil => intro r n h; exact h
  | cons k ks ih =>
    intro r n h
    rcases hget : dictGet dict k with _ | pr
    · rw [subtractChain_cons_none ks r hget] at h
      exact ih r n h
    · by_cases hpr : pr = []
      · subst hpr
        rw [subtractChain_cons_some_nil ks r hget] at h
        exact ih r n h
      · rw [subtractChain_cons_some ks r hget hpr] at h
        by_cases hr2 : subtract_ranges r pr = []
        · rw [if_pos hr2] at h
          simp [containsRev] at h
        · rw [if_neg hr2] at h
          have h2 := ih _ _ h
          rw [containsRev_subtract] at h2
          exact ((Bool.and_eq_true _ _).mp h2).1

theorem subtractChain_disjoint (dict : List (Bytes × List (Nat × Nat))) :
    ∀ (ks : List Bytes) (r : List (Nat × Nat)),
    subtractChain dict ks r ≠ [] →
    ∀ k ∈ ks, ∀ pr, dictGet dict k = some pr → pr ≠ [] →
    ∀ n, containsRev (subtractChain dict ks r) n = true → containsRev pr n = false := by
  intro ks
  induction ks with
  | nil => intro r _ k hk; cases hk
  | cons k₀ ks ih =>
    intro r hne k hk pr hget hpr n hn
    rcases hget₀ : dictGet dict k₀ with _ | pr₀
    · rw [subtractChain_cons_none ks r hget₀] at hne hn
      rcases List.mem_cons.mp hk with hk | hk
      · subst hk
        rw [hget] at hget₀
        cases hget₀
      · exact ih r hne k hk pr hget hpr n hn
    · by_cases hpr₀ : pr₀ = []
      · subst hpr₀
        rw [subtractChain_cons_some_nil ks r hget₀] at hne hn
        rcases List.mem_cons.mp hk with hk | hk
        · subst hk
          rw [hget] at hget₀
          cases hget₀
          exact absurd rfl hpr
        · exact ih r hne k hk pr hget hpr n hn
      · rw [subtractChain_cons_some ks r hget₀ hpr₀] at hne hn
        by_cases hr2 : subtract_ranges r pr₀ = []
        · rw [if_pos hr2] at hne
          exact absurd rfl hne
        · rw [if_neg hr2] at hne hn
          rcases List.mem_cons.mp hk with hk | hk
          · subst hk
            rw [hget] at hget₀
            cases hget₀
            have h2 := subtractChain_mono dict ks _ n hn
            rw [containsRev_subtract] at h2
            have := ((Bool.and_eq_true _ _).mp h2).2
            simpa using this
          · exact ih _ hne k hk pr hget hpr n hn

theorem mem_keys_dictSet [DecidableEq κ] {d : List (κ × ν)} {k k' : κ} {v : ν}
    (h : k' ∈ (dictSet d k v).map Prod.fst) : k' ∈ d.map Prod.fst ∨ k' = k := by
  induction d with
  | nil =>
    simp only [dictSet, List.map_cons, List.map_nil, List.mem_singleton] at h
    exact Or.inr h
  | cons e rest ih =>
    obtain ⟨k₀, v₀⟩ := e
    by_cases hk : k₀ = k
    · simp only [dictSet, if_pos hk, List.map_cons] at h
      rcases List.mem_cons.mp h with h | h
      · exact Or.inl (by simp [h])
      · exact Or.inl (List.mem_cons_of_mem _ h)
    · simp only [dictSet, if_neg hk, List.map_cons] at h
      rcases List.mem_cons.mp h with h | h
      · exact Or.inl (by simp [h])
      · rcases ih h with h | h
        · exact Or.inl (List.mem_cons_of_mem _ h)
        · exact Or.inr h

theorem dictSet_keys_nodup [DecidableEq κ] {d : List (κ × ν)} (k : κ) (v : ν)
    (h : (d.map Prod.fst).Nodup) : ((dictSet d k v).map Prod.fst).Nodup := by
  induction d with
  | nil => simp [dictSet]
  | cons e rest ih =>
    obtain ⟨k₀, v₀⟩ := e
    simp only [List.map_cons, List.nodup_cons] at h
    by_cases hk : k₀ = k
    · subst hk
      have hset : dictSet ((k₀, v₀) :: rest) k₀ v = (k₀, v) :: rest := by
        simp [dictSet]
      rw [hset]
      simp only [List.map_cons, List.nodup_cons]
      exact ⟨h.1, h.2⟩
    · simp only [dictSet, if_neg hk, List.map_cons, List.nodup_cons]
      refine ⟨?_, ih h.2⟩
      intro hc
      rcases mem_keys_dictSet hc with hc | hc
      · exact h.1 hc
      · exact hk hc

theorem addGo_keys :
    ∀ (addDict acc : List (Bytes × List (Nat × Nat))),
    (acc.map Prod.fst).Nodup →
    ((addGo acc addDict).map Prod.fst).Nodup ∧
    (∀ k ∈ (addGo acc addDict).map Prod.fst,
      k ∈ acc.map Prod.fst ∨ k ∈ addDict.map Prod.fst) := by
  intro addDict
  induction addDict with
  | nil => intro acc h; exact ⟨h, fun k hk => Or.inl hk⟩
  | cons e rest ih =>
    intro acc h
    obtain ⟨p, r⟩ := e
    have hsub : ∀ acc₂ : List (Bytes × List (Nat × Nat)),
        (acc₂.map Prod.fst).Nodup →
        (∀ k ∈ acc₂.map Prod.fst, k ∈ acc.map Prod.fst ∨ k = p) →
        ((addGo acc₂ rest).map Prod.fst).Nodup ∧
        (∀ k ∈ (addGo acc₂ rest).map Prod.fst,
          k ∈ acc.map Prod.fst ∨ k ∈ ((p, r) :: rest).map Prod.fst) := by
      intro acc₂ h₂ hk₂
      obtain ⟨hn, hks⟩ := ih acc₂ h₂
      refine ⟨hn, fun k hk => ?_⟩
      rcases hks k hk with hk | hk
      · rcases hk₂ k hk with hk | hk
        · exact Or.inl hk
        · exact Or.inr (by simp [hk])
      · exact Or.inr (List.mem_cons_of_mem _ hk)
    rcases hget : dictGet acc p with _ | prev
    · simp only [addGo, hget]
      exact hsub (dictSet acc p r) (dictSet_keys_nodup _ _ h)
        (fun k hk => mem_keys_dictSet hk)
    · simp only [addGo, hget]
      refine hsub _ ?_ ?_
      · by_cases hc : combine_ranges prev r ≠ prev
        · rw [if_pos hc]; exact dictSet_keys_nodup _ _ h
        · rw [if_neg hc]; exact h
      · by_cases hc : combine_ranges prev r ≠ prev
        · rw [if_pos hc]; exact fun k hk => mem_keys_dictSet hk
        · rw [if_neg hc]; exact fun k hk => Or.inl hk

theorem buildGo_keys :
    ∀ (t : List (Bytes × List (Bytes × List (Nat × Nat))))
      (acc : List (Bytes × List (Nat × Nat))),
    (acc.map Prod.fst).Nodup →
    ((buildGo acc t).map Prod.fst).Nodup ∧
    (∀ k ∈ (buildGo acc t).map Prod.fst,
      k ∈ acc.map Prod.fst ∨ ∃ m ∈ t, k ∈ m.2.map Prod.fst) := by
  intro t
  induction t with
  | nil => intro acc h; exact ⟨h, fun k hk => Or.inl hk⟩
  | cons e rest ih =>
    intro acc h
    obtain ⟨s, m⟩ := e
    obtain ⟨hn₁, hk₁⟩ := addGo_keys m acc h
    simp only [buildGo, mi_add_mergeinfo]
    obtain ⟨hn, hks⟩ := ih (addGo acc m) hn₁
    refine ⟨hn, fun k hk => ?_⟩
    rcases hks k hk with hk | hk
    · rcases hk₁ k hk with hk | hk
      · exact Or.inl hk
      · exact Or.inr ⟨(s, m), List.mem_cons_self _ _, hk⟩
    · obtain ⟨m', hm', hk'⟩ := hk
      exact Or.inr ⟨m', List.mem_cons_of_mem _ hm', hk'⟩

theorem build_mergeinfo_keys (t : List (Bytes × List (Bytes × List (Nat × Nat)))) :
    ((build_mergeinfo t).map Prod.fst).Nodup ∧
    (∀ k ∈ (build_mergeinfo t).map Prod.fst, ∃ m ∈ t, k ∈ m.2.map Prod.fst) := by
  obtain ⟨hn, hks⟩ := buildGo_keys t [] (by simp)
  refine ⟨hn, fun k hk => ?_⟩
  rcases hks k hk with hk | hk
  · simp at hk
  · exact hk

theorem diffLoopAux_self {d : List (Bytes × List (Nat × Nat))}
    (hnd : (d.map Prod.fst).Nodup) {p : Bytes} {r : List (Nat × Nat)}
    (hp : p ≠ []) (hm : (p, r) ∈ d) :
    diffLoopAux d (p.length + 1) p r = [] := by
  by_cases hr : r = []
  · subst hr
    simp [diffLoopAux]
  · have hget : dictGet d (if p = [] then [47] else p) = some r := by
      rw [if_neg hp]
      exact dictGet_eq_of_mem hnd hm
    simp only [diffLoopAux, if_neg hr, hget]
    simp [hr]

theorem mi_get_diff_self (d : List (Bytes × List (Nat × Nat)))
    (hnd : (d.map Prod.fst).Nodup)
    (hk : ∀ k ∈ d.map Prod.fst, k ≠ []) :
    mi_get_diff d d = [] := by
  unfold mi_get_diff
  suffices h : ∀ l : List (Bytes × List (Nat × Nat)), (∀ x ∈ l, x ∈ d) →
      diffGo d [] l = [] from h d (fun x hx => hx)
  intro l
  induction l with
  | nil => intro _; rfl
  | cons e rest ih =>
    intro hl
    obtain ⟨p, r⟩ := e
    have he : (p, r) ∈ d := hl (p, r) (List.mem_cons_self _ _)
    have hp : p ≠ [] := hk p (List.mem_map_of_mem Prod.fst he)
    have hz : diffLoopAux d (p.length + 1) p r = [] := diffLoopAux_self hnd hp he
    simp only [diffGo, hz, ne_eq, not_true_eq_false, if_false, ite_false]
    exact ih (fun x hx => hl x (List.mem_cons_of_mem _ hx))

theorem isort_mergeinfo_strict (d : List (Bytes × List (Nat × Nat)))
    (hnd : (d.map Prod.fst).Nodup) :
    (isort mergeinfoLe d).Pairwise (fun x y => bytesLt x.1 y.1 = true) := by
  have hs := isort_pairwise mergeinfoLe_trans mergeinfoLe_total d
  have hperm : ((isort mergeinfoLe d).map Prod.fst).Perm (d.map Prod.fst) :=
    (isort_perm _ d).map _
  have hnd' : ((isort mergeinfoLe d).map Prod.fst).Nodup := hperm.nodup_iff.mpr hnd
  have hne : (isort mergeinfoLe d).Pairwise (fun a b => a.1 ≠ b.1) :=
    List.pairwise_map.mp hnd'
  refine (hs.and hne).imp ?_
  rintro a b ⟨hle, hab⟩
  unfold mergeinfoLe propLe at hle
  rw [if_neg hab] at hle
  exact bytesLt_iff.mpr ⟨hle, hab⟩

theorem normGo_disjoint :
    ∀ (rest dict : List (Bytes × List (Nat × Nat))),
    (dict.map Prod.fst).Nodup →
    (∀ x ∈ dict, ∀ y ∈ dict, y.1 ∈ chainKeys x.1 → y.1 ≠ x.1 →
      ∀ n, ¬(containsRev x.2 n = true ∧ containsRev y.2 n = true)) →
    (∀ x ∈ dict, ∀ q ∈ rest, bytesLt x.1 q.1 = true) →
    rest.Pairwise (fun x y => bytesLt x.1 y.1 = true) →
    (∀ x ∈ dict, x.2 ≠ []) →
    (∀ x ∈ dict, x.1.head? = some 47) →
    (∀ q ∈ rest, q.1.head? = some 47) →
    ∀ x ∈ normGo dict rest, ∀ y ∈ normGo dict rest, y.1 ∈ chainKeys x.1 → y.1 ≠ x.1 →
      ∀ n, ¬(containsRev x.2 n = true ∧ containsRev y.2 n = true) := by
  intro rest
  induction rest with
  | nil =>
    intro dict _ hdisj _ _ _ _ _
    simpa only [normGo] using hdisj
  | cons e rest ih =>
    intro dict hnd hdisj hord hpair hval hsl hslr
    obtain ⟨p, r⟩ := e
    simp only [normGo]
    by_cases hr2e : subtractChain dict (chainKeys p) r = []
    · rw [if_pos hr2e]
      exact ih dict hnd hdisj
        (fun x hx q hq => hord x hx q (List.mem_cons_of_mem _ hq))
        (List.pairwise_cons.mp hpair).2 hval hsl
        (fun q hq => hslr q (List.mem_cons_of_mem _ hq))
    · rw [if_neg hr2e]
      have hpnotin : p ∉ dict.map Prod.fst := by
        intro hmem
        obtain ⟨x, hx, hx1⟩ := List.mem_map.mp hmem
        have hlt := hord x hx (p, r) (List.mem_cons_self _ _)
        rw [hx1, bytesLt_irrefl] at hlt
        exact Bool.noConfusion hlt
      have hfresh : dictGet dict p = none := by
        apply dictGet_none_of_forall_ne
        intro x hx hxp
        exact hpnotin (hxp ▸ List.mem_map_of_mem Prod.fst hx)
      have happ : dictSet dict p (subtractChain dict (chainKeys p) r)
          = dict ++ [(p, subtractChain dict (chainKeys p) r)] :=
        dictSet_eq_append _ _ _ (by simp [containsKey, hfresh])
      rw [happ]
      refine ih _ ?_ ?_ ?_ (List.pairwise_cons.mp hpair).2 ?_ ?_
        (fun q hq => hslr q (List.mem_cons_of_mem _ hq))
      · rw [List.map_append]
        refine List.Nodup.append hnd (List.nodup_singleton _) ?_
        intro a ha hb
        rw [List.map_singleton, List.mem_singleton] at hb
        subst hb
        exact hpnotin ha
      · intro x hx y hy hyc hyx n
        rcases List.mem_append.mp hx with hx | hx
        · rcases List.mem_append.mp hy with hy | hy
          · exact hdisj x hx y hy hyc hyx n
          · rw [List.mem_singleton] at hy
            subst hy
            intro _
            have hle : bytesLe p x.1 = true := chainKeys_le hyc (hsl x hx)
            have hlt := hord x hx (p, r) (List.mem_cons_self _ _)
            have h2 := bytesLt_iff.mp hlt
            exact h2.2 (bytesLe_antisymm h2.1 hle)
        · rw [List.mem_singleton] at hx
          subst hx
          rcases List.mem_append.mp hy with hy | hy
          · rintro ⟨h1, h2⟩
            have hgety : dictGet dict y.1 = some y.2 :=
              dictGet_eq_of_mem hnd (by simpa using hy)
            have hdis := subtractChain_disjoint dict (chainKeys p) r hr2e
              y.1 hyc y.2 hgety (hval y hy) n h1
            rw [hdis] at h2
            exact Bool.noConfusion h2
          · rw [List.mem_singleton] at hy
            subst hy
            exact fun _ => hyx rfl
      · intro x hx q hq
        rcases List.mem_append.mp hx with hx | hx
        · exact hord x hx q (List.mem_cons_of_mem _ hq)
        · rw [List.mem_singleton] at hx
          subst hx
          exact (List.pairwise_cons.mp hpair).1 q hq
      · intro x hx
        rcases List.mem_append.mp hx with hx | hx
        · exact hval x hx
        · rw [List.mem_singleton] at hx
          subst hx
          exact hr2e
      · intro x hx
        rcases List.mem_append.mp hx with hx | hx
        · exact hsl x hx
        · rw [List.mem_singleton] at hx
          subst hx
          exact hslr (p, r) (List.mem_cons_self _ _)

/-- C4: over a mergeinfo dictionary with distinct keys that all start with
`/` (the invariant `normalize` itself documents), after `normalize` no
entry's ranges intersect the ranges of any distinct ancestor entry on its
parent chain — the ancestor's ranges were subtracted from the child and
emptied entries were dropped; and for every tree-mergeinfo whose per-path
mergeinfo keys are non-empty,
`build_mergeinfo(T).get_diff(build_mergeinfo(T))` is the empty
mergeinfo. -/
theorem mergeinfo_normalize_disjoint_and_diff_self_empty
    (d : List (Bytes × List (Nat × Nat)))
    (hnd : (d.map Prod.fst).Nodup)
    (hsl : ∀ k ∈ d.map Prod.fst, k.head? = some 47)
    (t : List (Bytes × List (Bytes × List (Nat × Nat))))
    (ht : ∀ m ∈ t, ∀ k ∈ m.2.map Prod.fst, k ≠ []) :
    (∀ x ∈ mi_normalize d, ∀ y ∈ mi_normalize d, y.1 ∈ chainKeys x.1 → y.1 ≠ x.1 →
      ∀ n, ¬(containsRev x.2 n = true ∧ containsRev y.2 n = true)) ∧
    mi_get_diff (build_mergeinfo t) (build_mergeinfo t) = [] := by
  constructor
  · exact normGo_disjoint (isort mergeinfoLe d) []
      (by simp)
      (fun x hx => absurd hx (List.not_mem_nil x))
      (fun x hx => absurd hx (List.not_mem_nil x))
      (isort_mergeinfo_strict d hnd)
      (fun x hx => absurd hx (List.not_mem_nil x))
      (fun x hx => absurd hx (List.not_mem_nil x))
      (fun q hq => hsl q.1 (List.mem_map_of_mem Prod.fst (mem_isort.mp hq)))
  · obtain ⟨hbn, hbk⟩ := build_mergeinfo_keys t
    refine mi_get_diff_self _ hbn ?_
    intro k hk
    obtain ⟨m, hm, hk'⟩ := hbk k hk
    exact ht m hm k hk'

/-- Witness for C4 at a concrete mergeinfo (paths `/a` and `/`) and a
concrete tree-mergeinfo (subpath `d` carrying mergeinfo for `/b`). -/
theorem mergeinfo_normalize_disjoint_and_diff_self_empty_witness :
    (([([47, 97], [(1, 5)]), ([47], [(2, 3)])] : List (Bytes × List (Nat × Nat))).map
        Prod.fst).Nodup ∧
    ((∀ x ∈ mi_normalize [([47, 97], [(1, 5)]), ([47], [(2, 3)])],
        ∀ y ∈ mi_normalize [([47, 97], [(1, 5)]), ([47], [(2, 3)])],
        y.1 ∈ chainKeys x.1 → y.1 ≠ x.1 →
        ∀ n, ¬(containsRev x.2 n = true ∧ containsRev y.2 n = true)) ∧
      mi_get_diff (build_mergeinfo [([100], [([47, 98], [(1, 4)])])])
        (build_mergeinfo [([100], [([47, 98], [(1, 4)])])]) = []) :=
  ⟨by decide,
    mergeinfo_normalize_disjoint_and_diff_self_empty
      [([47, 97], [(1, 5)]), ([47], [(2, 3)])] (by decide) (by decide)
      [([100], [([47, 98], [(1, 4)])])] (by decide)⟩

end Svn2Git
